import Mathlib

set_option autoImplicit false

/-!
Verification of the PMRES core-guided MaxSAT solver
(src/solver/Loandra/algorithms/Alg_PMRES.cc) against its specification.

The data model and all operations below are shallow embeddings of the C++
source.  64-bit unsigned weights and costs are modelled as `Nat`; the one
place where uint64 wrap-around is observable on reachable states (the
subtraction `ubCost - lbCost` in `checkGap`, which is executed while
`lbCost > ubCost` may transiently hold) is modelled with explicit
arithmetic modulo 2^64 (`gap64`).
-/

/-- A MiniSat-style literal: a variable index together with a sign
(`sign = true` means the negated literal). -/
structure Lit where
  var : Nat
  sign : Bool
deriving DecidableEq, Repr

instance : Inhabited Lit := ⟨⟨0, false⟩⟩

/-- The `mkLit` from MiniSat: build a literal from a variable and a sign. -/
def mkLit (v : Nat) (s : Bool) : Lit := ⟨v, s⟩

/-- Literal negation (`~l` in MiniSat). -/
def lneg (l : Lit) : Lit := ⟨l.var, !l.sign⟩

/-- The three-valued booleans of MiniSat models. -/
inductive LBool
  | ltrue
  | lfalse
  | lundef
deriving DecidableEq, Repr

/-- A soft clause of the formula store: a 64-bit weight, a clause body and
an assumption literal (`none` models `lit_Undef`). -/
structure SoftClause where
  weight : Nat
  clause : List Lit
  assumption_var : Option Lit
deriving DecidableEq, Repr

instance : Inhabited SoftClause := ⟨⟨0, [], none⟩⟩

/-- The `maxsat_formula->getProblemType()`: weighted or unweighted. -/
inductive ProblemType
  | weighted
  | unweighted
deriving DecidableEq, Repr

/-- Modelled from the spec: the formula store (`MaxSATFormula`, an external
collaborator of Alg_PMRES.cc, spec section 4.1).  It owns a variable count,
the ordered hard and soft clauses, the working weight threshold
`maxWeight` and the problem type.  `coreMapping` (a `PMRES` member in the
source, `std::map<Lit,int>`) maps an assumption literal to the index of
the soft clause it guards; we keep it next to the formula data it indexes. -/
structure Formula where
  nVars : Nat
  hard : List (List Lit)
  soft : List SoftClause
  maxWeight : Nat
  problemType : ProblemType
  coreMapping : Lit → Nat

/-- Configuration options of the solver (spec section 6). -/
structure Config where
  lins : Nat
  varyingres : Bool
  varyingresCG : Bool
  delete_before_lin : Bool
  varresFactor : Nat
deriving DecidableEq, Repr

/-- The long-lived solver state: the `PMRES` members that the optimisation
loop mutates.  `oracleHard` records the clauses pushed to the SAT oracle
(`solver->addClause`).  `hardAbsorbed` is a ghost accounting variable (the
total soft weight zeroed by the hardener); it does not exist in the source
and is used only to state the sum invariant of the spec. -/
structure PM where
  cfg : Config
  F : Formula
  lbCost : Nat
  ubCost : Nat
  known_gap : Nat
  maxw_nothardened : Nat
  num_hardened : Nat
  softs_added : Nat
  nbCurrentSoft : Nat
  nbCores : Nat
  oracleHard : List (List Lit)
  hardAbsorbed : Nat

/-- The `UINT64_MAX`, the initial accumulator of `computeCostCore`. -/
def UINT64_MAX : Nat := 2 ^ 64 - 1

/-- The weight of the soft clause a conflict literal points to:
`maxsat_formula->getSoftClause(coreMapping[l]).weight`. -/
def softWeightAt (F : Formula) (l : Lit) : Nat :=
  (F.soft.getD (F.coreMapping l) default).weight

/-- The `PMRES::nRealSoft` (line 1398): `nSoft() - num_hardened`. -/
def nRealSoft (pm : PM) : Nat := pm.F.soft.length - pm.num_hardened

/-- Total weight currently carried by the soft clauses. -/
def softSum (F : Formula) : Nat := (F.soft.map (·.weight)).sum

/-- uint64 subtraction `a - b` (wrap-around on underflow), on values below
2^64 it agrees with machine subtraction. -/
def gap64 (a b : Nat) : Nat := (a + (2 ^ 64 - b % 2 ^ 64)) % 2 ^ 64

/-- The `PMRES::findNextWeight` (lines 133-143): scans the soft clauses with
accumulator `nextWeight` starting at 1, taking any weight that is above
the accumulator and strictly below `weight`. -/
def findNextWeight (F : Formula) (weight : Nat) : Nat :=
  F.soft.foldl
    (fun nextWeight sc =>
      if sc.weight > nextWeight ∧ sc.weight < weight then sc.weight else nextWeight)
    1

/-- The value claim C7 describes, written from the spec's words: the
greatest weight occurring among the soft clauses that is strictly less
than `w`, or 1 if no soft clause has weight strictly less than `w`. -/
def specNextWeight (F : Formula) (w : Nat) : Nat :=
  let cands := (F.soft.map (·.weight)).filter (fun u => decide (u < w))
  if cands.isEmpty then 1 else cands.foldl max 0

/-- The amended C7 value: the greatest positive weight occurring among the
soft clauses that is strictly less than `w`, or 1 if no soft clause has a
positive weight strictly less than `w`. -/
def specNextWeightPos (F : Formula) (w : Nat) : Nat :=
  let cands := (F.soft.map (·.weight)).filter (fun u => decide (0 < u ∧ u < w))
  if cands.isEmpty then 1 else cands.foldl max 0

/-- The `PMRES::computeCostCore` (lines 539-555): 1 on unweighted formulas,
otherwise the running minimum (initialised at `UINT64_MAX`) of the weights
of the soft clauses the conflict literals point to. -/
def computeCostCore (F : Formula) (conflict : List Lit) : Nat :=
  if F.problemType = ProblemType.unweighted then 1
  else
    conflict.foldl
      (fun coreCost l =>
        if softWeightAt F l < coreCost then softWeightAt F l else coreCost)
      UINT64_MAX

/-- The `PMRES::checkGap` (lines 1497-1506): `currentGap := ubCost - lbCost`
(uint64 subtraction); `known_gap` is lowered to it when strictly smaller. -/
def checkGapPM (pm : PM) : PM :=
  let currentGap := gap64 pm.ubCost pm.lbCost
  if currentGap < pm.known_gap then { pm with known_gap := currentGap } else pm

/-- The `PMRES::checkModel` (lines 1474-1495), abstracted over the cost
`computeCostModelPMRES(solver->model)` of the oracle's current model: when
the cost improves on `ubCost`, the upper bound is lowered, the model is
saved and `checkGap` runs; the equal-cost-but-longer branch only copies
the model and touches no bound. -/
def checkModelPM (pm : PM) (modelCost : Nat) : PM :=
  if modelCost < pm.ubCost then checkGapPM { pm with ubCost := modelCost } else pm

/-- The SAT branch of `PMRES::weightSearch` (lines 752-757): the upper
bound is lowered to the cost of the model when it improves. -/
def weightSearchSatStep (pm : PM) (modelCost : Nat) : PM :=
  if modelCost < pm.ubCost then { pm with ubCost := modelCost } else pm

/-- Modelled from the spec: `MaxSATFormula::newLiteral` of the formula
store (spec sections 3 and 4.1): a fresh variable is appended and its
positive literal returned. -/
def Formula.newLiteral (F : Formula) : Formula × Lit :=
  ({ F with nVars := F.nVars + 1 }, mkLit F.nVars false)

/-- Modelled from the spec: `MaxSATFormula::addHardClause` of the formula
store (spec section 4.1): an O(1) append, no deduplication. -/
def Formula.addHardClause (F : Formula) (c : List Lit) : Formula :=
  { F with hard := F.hard ++ [c] }

/-- The `PMRES::addSoftClauseAndAssumptionVar` (lines 1385-1396): a fresh
literal `l` is created, `clause ++ [l]` is pushed as a hard clause, the
unit `[~l]` becomes a new soft clause of the given weight with assumption
variable `l`, and `coreMapping[l]` is set to its index. -/
def addSoftClauseAndAssumptionVar (weight : Nat) (clause : List Lit) (F : Formula) : Formula :=
  let l := mkLit F.nVars false
  { F with
    nVars := F.nVars + 1
    hard := F.hard ++ [clause ++ [l]]
    soft := F.soft ++ [⟨weight, [lneg l], some l⟩]
    coreMapping := fun x => if x = l then F.soft.length else F.coreMapping x }

/-- The `PMRES::encodeMaxRes` (lines 389-469), the PMRES transformation.  The
source's loops only allocate fresh variables and append clauses whose
shape depends on the loop index, so they are rendered as maps over
`List.range`:
* first loop (399-403): `n-1` fresh d-variables, `d i = mkLit (nVars+i)`;
* lines 406-410: the core itself is added as a hard clause only when
  `lins == 0`;
* loop for `n > 2` (412-442): per `i < n-2`, the direction
  `d_i -> (b_{i+1} v d_{i+1})` only when `lins == 0`, and always
  `{d_i, ~b_{i+1}}` and `{d_i, ~d_{i+1}}`;
* `n > 1` case (444-457): the two final clauses `{d_{n-2}, ~b_{n-1}}` and
  `{~d_{n-2}, b_{n-1}}`;
* soft loop (460-466): per `i < n-1`, `addSoftClauseAndAssumptionVar`
  reifies `{~b_i, ~d_i}` through a fresh assumption literal
  `a i = mkLit (nVars + (n-1) + i)` (allocated after all d-variables). -/
def dLit (F : Formula) (i : Nat) : Lit := mkLit (F.nVars + i) false

def aLit (F : Formula) (core : List Lit) (i : Nat) : Lit :=
  mkLit (F.nVars + (core.length - 1) + i) false

/-- The hard clauses of the `n > 2` loop of `encodeMaxRes` (lines
412-442): per `i < n-2`, the `d_i -> (b_{i+1} v d_{i+1})` clause only when
`lins == 0` (lines 418-424), and in every mode `{d_i, ~b_{i+1}}` and
`{d_i, ~d_{i+1}}` (lines 430-440). -/
def emrChain (lins : Nat) (F : Formula) (core : List Lit) : List (List Lit) :=
  if core.length > 2 then
    (List.range (core.length - 2)).flatMap (fun i =>
      (if lins = 0 then
        [[lneg (dLit F i), dLit F (i + 1), core.getD (i + 1) default]]
       else [])
        ++ [[dLit F i, lneg (core.getD (i + 1) default)],
            [dLit F i, lneg (dLit F (i + 1))]])
  else []

/-- The `i = n-2` final hard clauses of `encodeMaxRes` (lines 444-457),
added in every mode when `n > 1`. -/
def emrFinals (F : Formula) (core : List Lit) : List (List Lit) :=
  if core.length > 1 then
    [[dLit F (core.length - 2), lneg (core.getD (core.length - 1) default)],
     [lneg (dLit F (core.length - 2)), core.getD (core.length - 1) default]]
  else []

/-- The reification hard clauses `{~b_i, ~d_i, a_i}` pushed by
`addSoftClauseAndAssumptionVar` in the soft loop of `encodeMaxRes`
(lines 460-466 and 1385-1396). -/
def emrReified (F : Formula) (core : List Lit) : List (List Lit) :=
  (List.range (core.length - 1)).map (fun i =>
    [lneg (core.getD i default), lneg (dLit F i), aLit F core i])

/-- All hard clauses appended by `encodeMaxRes`, in source order: the core
itself when `lins == 0` (lines 406-410), the chain clauses, the final
clauses, the reification clauses. -/
def emrNewHard (lins : Nat) (F : Formula) (core : List Lit) : List (List Lit) :=
  (if lins = 0 then [core] else []) ++ emrChain lins F core
    ++ emrFinals F core ++ emrReified F core

/-- The new unit soft clauses `{~a_i}` of weight `w` created by the soft
loop of `encodeMaxRes` (lines 460-466 and 1385-1396). -/
def emrNewSofts (F : Formula) (core : List Lit) (w : Nat) : List SoftClause :=
  (List.range (core.length - 1)).map (fun i =>
    SoftClause.mk w [lneg (aLit F core i)] (some (aLit F core i)))

/-- The `PMRES::encodeMaxRes` (lines 389-469), the PMRES transformation.  The
source's loops only allocate fresh variables and append clauses whose
shape depends on the loop index, so they are rendered as maps over
`List.range`: the first loop (399-403) allocates the `n-1` d-variables
`dLit F i = mkLit (nVars + i)`; the soft loop (460-466) then allocates
one assumption literal `aLit F core i = mkLit (nVars + (n-1) + i)` per
new soft clause.  The hard clauses are `emrNewHard`, the soft clauses
`emrNewSofts`, and `coreMapping` gains `a_i -> nSoft + i` per new soft
clause (line 1395). -/
def encodeMaxRes (lins : Nat) (F : Formula) (core : List Lit) (w : Nat) : Formula :=
  let n := core.length
  { F with
    nVars := F.nVars + (n - 1) + (n - 1)
    hard := F.hard ++ emrNewHard lins F core
    soft := F.soft ++ emrNewSofts F core w
    coreMapping :=
      (List.range (n - 1)).foldl
        (fun m i => fun l => if l = aLit F core i then F.soft.length + i else m l)
        F.coreMapping }

/-- One decrement step of the loop of `PMRES::relaxCore` (lines 512-521),
acting on the soft-clause list and the `num_hardened` counter: the soft
clause at `idx` loses `w` of its weight; if that drives the weight to 0
its assumption variable is cleared and `num_hardened` is incremented. -/
def relaxDecStep (w : Nat) (acc : List SoftClause × Nat) (idx : Nat) :
    List SoftClause × Nat :=
  match acc.1[idx]? with
  | none => acc
  | some sc =>
    let w2 := sc.weight - w
    if w2 = 0 then
      (acc.1.set idx { sc with weight := 0, assumption_var := none }, acc.2 + 1)
    else
      (acc.1.set idx { sc with weight := w2 }, acc.2)

/-- The `PMRES::relaxCore` (lines 506-524): each soft clause a conflict
literal points to (through `coreMapping`) is decremented by the core
weight, then `encodeMaxRes` is applied. -/
def relaxCorePM (pm : PM) (conflict : List Lit) (w : Nat) : PM :=
  let r := (conflict.map pm.F.coreMapping).foldl (relaxDecStep w) (pm.F.soft, pm.num_hardened)
  { pm with
    F := encodeMaxRes pm.cfg.lins { pm.F with soft := r.1 } conflict w
    num_hardened := r.2 }

/-- The UNSAT branch of `PMRES::weightDisjointCores` (lines 649-661):
`lbCost += computeCostCore(conflict)`, `checkGap`, then `relaxCore`
(`nbCores` is also incremented). -/
def relaxEvent (pm : PM) (conflict : List Lit) : PM :=
  let coreCost := computeCostCore pm.F conflict
  let pm1 := checkGapPM { pm with lbCost := pm.lbCost + coreCost, nbCores := pm.nbCores + 1 }
  relaxCorePM pm1 conflict coreCost

/-- The assumption literal stored in a soft clause; the source asserts
`l != lit_Undef` before every use modelled with this accessor. -/
def theLit (o : Option Lit) : Lit := o.getD default

/-- The `shouldAdd` test of `PMRES::setAssumptions` (lines 1228-1230). -/
def shouldAdd (cfg : Config) (maxWeight : Nat) (sc : SoftClause) : Bool :=
  (decide (sc.weight ≥ maxWeight) && !cfg.varyingresCG) ||
    (decide (sc.weight / maxWeight > 0) && cfg.varyingresCG)

/-- The `PMRES::setAssumptions` (lines 1222-1239): iterates over the first
`softs_added` soft clauses, pushing the negated assumption literal of
every clause passing the weight test and counting them in
`nbCurrentSoft`. -/
def setAssumptions (pm : PM) : List Lit × PM :=
  let r :=
    (pm.F.soft.take pm.softs_added).foldl
      (fun (acc : List Lit × Nat) sc =>
        if shouldAdd pm.cfg pm.F.maxWeight sc then
          (acc.1 ++ [lneg (theLit sc.assumption_var)], acc.2 + 1)
        else acc)
      ([], 0)
  (r.1, { pm with nbCurrentSoft := r.2 })

/-- The `PMRES::literalTrueInModel` (lines 1432-1439) and the inlined copies
at lines 234-235: a literal is true in a model when its variable is
assigned the matching polarity. -/
def litTrueInModel (l : Lit) (model : List LBool) : Bool :=
  (l.sign && decide (model.getD l.var LBool.lundef = LBool.lfalse)) ||
    (!l.sign && decide (model.getD l.var LBool.lundef = LBool.ltrue))

/-- The `PMRES::hardenLazily` (lines 268-270). -/
def hardenLazily (cfg : Config) : Bool := !cfg.delete_before_lin && !cfg.varyingres

/-- The hardening test of `PMRES::hardenClauses` (lines 228-239): a soft
clause is hardened when its weight exceeds the gap, or equals the gap and
its (unit) body is satisfied by the model. -/
def hardenCond (bound : Nat) (model : List LBool) (sc : SoftClause) : Bool :=
  decide (sc.weight > bound) ||
    (decide (sc.weight = bound) && litTrueInModel (sc.clause.getD 0 default) model)

/-- Result of one pass of the hardening loop: the rewritten soft clauses,
the unit clauses pushed to the oracle, the number of clauses hardened and
the final `maxw_nothardened`. -/
structure HardenResult where
  softs : List SoftClause
  pushed : List (List Lit)
  count : Nat
  maxw : Nat

/-- The loop of `PMRES::hardenClauses` (lines 225-262) over the soft
clauses it inspects, processed front to back.  A hardened clause has its
weight zeroed and its assumption cleared, and `{~assumption_var}` is
emitted; a clause that stays soft feeds the running maximum
`maxw_nothardened` (the running maximum is order-independent, so it is
accumulated on the way out of the recursion). -/
def hardenLoop (bound : Nat) (model : List LBool) : List SoftClause → HardenResult
  | [] => ⟨[], [], 0, 0⟩
  | sc :: rest =>
    let r := hardenLoop bound model rest
    if hardenCond bound model sc then
      ⟨{ sc with weight := 0, assumption_var := none } :: r.softs,
       [lneg (theLit sc.assumption_var)] :: r.pushed, r.count + 1, r.maxw⟩
    else
      ⟨sc :: r.softs, r.pushed, r.count,
       if sc.weight > r.maxw then sc.weight else r.maxw⟩

/-- The `PMRES::hardenClauses` (lines 219-266): with `bound = ubCost - lbCost`
the first `softs_added` soft clauses are inspected; each hardened clause's
`{~assumption_var}` goes to the oracle and, unless `hardenLazily()`, also
to the formula store; `num_hardened` grows by the number hardened and
`maxw_nothardened` is recomputed from scratch (it is reset to 0 first). -/
def hardenClauses (pm : PM) (model : List LBool) : PM :=
  let bound := gap64 pm.ubCost pm.lbCost
  let r := hardenLoop bound model (pm.F.soft.take pm.softs_added)
  { pm with
    F := { pm.F with
           soft := r.softs ++ pm.F.soft.drop pm.softs_added
           hard := pm.F.hard ++ (if hardenLazily pm.cfg then [] else r.pushed) }
    oracleHard := pm.oracleHard ++ r.pushed
    num_hardened := pm.num_hardened + r.count
    maxw_nothardened := r.maxw }

/-- The `PMRES::enoughSoftAboveWeight` (lines 278-295): among soft clauses of
weight at least `weightCand`, either the ratio of clause count to distinct
weight count exceeds alpha = 1.25, or every real soft clause qualifies.
The source's single-precision comparison
`(float)nbClauses / nbWeights.size() > 1.25` is rendered as the exact
rational test `4 * nbClauses > 5 * nbWeights`; the two agree whenever the
counts are below 2^24 and the exact ratio is not within half an ulp of
1.25 (well beyond any realistic clause count), and the rational test also
reproduces the inf/NaN behaviour when no clause qualifies.  The
single-precision rounding itself is outside this embedding. -/
def enoughSoftAboveWeight (pm : PM) (weightCand : Nat) : Bool :=
  let qual := pm.F.soft.filter (fun sc => decide (sc.weight ≥ weightCand))
  let nbClauses := qual.length
  let nbWeights := ((qual.map (·.weight)).eraseDups).length
  decide (4 * nbClauses > 5 * nbWeights) || decide (nbClauses = nRealSoft pm)

/-- The `PMRES::resetMaximumWeight` (lines 298-306): the maximum soft weight
(at least 1) becomes the working weight. -/
def resetMaximumWeight (F : Formula) : Formula :=
  { F with maxWeight := F.soft.foldl (fun maxW sc => if sc.weight > maxW then sc.weight else maxW) 1 }

/-- The counter loop of `PMRES::initializeDivisionFactor` (lines 348-352):
how many times `maxW` can be divided by `f` before reaching 0.  For
`f ≤ 1` the C++ loop would not terminate; the definition returns 0 there
(never relevant: `varres_factor ≥ 2`). -/
def countDiv (f : Nat) (m : Nat) : Nat :=
  if h : m = 0 ∨ f ≤ 1 then 0
  else 1 + countDiv f (m / f)
decreasing_by
  push_neg at h
  exact Nat.div_lt_self (Nat.pos_of_ne_zero h.1) h.2

/-- The division loop shared by `PMRES::initializeDivisionFactor`
(lines 354-355) and `PMRES::updateDivisionFactor` (lines 310-311): divide
the candidate by `f` until `enoughSoftAboveWeight` accepts it.  When the
candidate reaches 0 without being accepted, or `f ≤ 1`, the C++ loop would
not terminate; the definition returns the current candidate there. -/
def divideWhileNotEnough (pm : PM) (f : Nat) (c : Nat) : Nat :=
  if enoughSoftAboveWeight pm c then c
  else if h : c = 0 ∨ f ≤ 1 then c
  else divideWhileNotEnough pm f (c / f)
decreasing_by
  push_neg at h
  exact Nat.div_lt_self (Nat.pos_of_ne_zero h.1) h.2

/-- The `PMRES::initializeDivisionFactor` (lines 337-359).  With `var = false`
the working weight is simply set to 1.  Otherwise the working weight is
reset to the maximum soft weight `maxW`, the candidate
`pow(varresFactor, counter - 1)` is computed from the division counter
(line 353), and the candidate is divided down until
`enoughSoftAboveWeight` holds.  The call at line 353 is the mathematical
library's double-precision `pow`, an external computation whose rounding
is not part of this embedding; it is taken as the parameter `powFn`.
Instantiating `powFn` with exact natural-number exponentiation models the
program exactly whenever the power is exactly representable as a double —
in particular whenever it is below 2^53, or the factor is a power of
two. -/
def initDivisionFactor (powFn : Nat → Nat → Nat) (varFlag : Bool) (pm : PM) : PM :=
  if !varFlag then { pm with F := { pm.F with maxWeight := 1 } }
  else
    let F1 := resetMaximumWeight pm.F
    let pm1 := { pm with F := F1 }
    let counter := countDiv pm.cfg.varresFactor F1.maxWeight
    let weightCand := powFn pm.cfg.varresFactor (counter - 1)
    { pm1 with F := { F1 with maxWeight := divideWhileNotEnough pm1 pm.cfg.varresFactor weightCand } }

/-- The status codes of the surrounding MaxSAT framework (spec section 7:
enumerated status codes; `StatusCode` is declared outside src/). -/
inductive StatusCode
  | SATISFIABLE
  | UNSATISFIABLE
  | OPTIMUM
  | UNKNOWN
  | ERROR
deriving DecidableEq, Repr

/-- One answer of the black-box CDCL oracle (`searchSATSolver`):
`l_True`, `l_False` with its conflict, or `l_Undef`. -/
inductive OracleResp
  | sat
  | unsat (conflict : List Lit)
  | undef
deriving Repr

/-- One iteration's worth of external input to `weightDisjointCores`: was
the core-extraction time budget already exhausted at the top of the loop,
and what the oracle answered otherwise. -/
structure WDCEvent where
  budgetExpired : Bool
  resp : OracleResp
deriving Repr

/-- The `PMRES::weightDisjointCores` (lines 630-671), driven by the stream of
external events (time budget and oracle answers).  Per iteration: an
exhausted budget returns `UNKNOWN`; otherwise `setAssumptions` runs and
the oracle is called; `l_Undef` returns `UNKNOWN`, `l_True` returns
`SATISFIABLE`, and on `l_False` the core is costed, `lbCost` grows,
`checkGap` and `relaxCore` run, and `ERROR` is returned if
`lbCost > ubCost`, else the loop continues.  `none` models running out of
the (finite) event stream, i.e. an unfinished run. -/
def weightDisjointCores (pm : PM) : List WDCEvent → Option (StatusCode × PM)
  | [] => none
  | ev :: rest =>
    if ev.budgetExpired then some (StatusCode.UNKNOWN, pm)
    else
      let pm1 := (setAssumptions pm).2
      match ev.resp with
      | OracleResp.undef => some (StatusCode.UNKNOWN, pm1)
      | OracleResp.sat => some (StatusCode.SATISFIABLE, pm1)
      | OracleResp.unsat conflict =>
        let pm2 := relaxEvent pm1 conflict
        if pm2.lbCost > pm2.ubCost then some (StatusCode.ERROR, pm2)
        else weightDisjointCores pm2 rest

/-- One bound-relevant operation of a `search()` run, as a relation on
solver states.  Each constructor is one mutation site of the source:
* `relax`: the UNSAT branch of `weightDisjointCores` (649-661); its
  hypotheses mirror the oracle contract (a conflict is a set of passed
  assumption literals, so the mapped indices are distinct, in range, and
  their clauses carry at least the core cost, cf. the assert at 514);
* `checkM`: `checkModel` (1474-1495) wherever it is called;
* `updUB`: the SAT branch of `weightSearch` (752-757);
* `ubToLb`: the `nbCurrentSoft == nRealSoft()` branches (764-770,
  833-843) and `getModelAfterCG` (904-909);
* `harden`: `hardenClauses` (219-266), with the ghost `hardAbsorbed`
  increased by the soft weight the hardener removed;
* `strat`: the stratification updates (`updateCurrentWeight`,
  `updateDivisionFactor`, `updateDivisionFactorLinear`,
  `initializeDivisionFactor`), which only move `maxWeight`;
* `sync`: `updateSolver`/`resetSolver` bookkeeping of `softs_added`;
* `assume`: `setAssumptions` (1222-1239);
* `linPrep`: `initRelaxation` (1092-1141), which rewrites `problemType`
  and `nbCurrentSoft` in the linear phase. -/
inductive GStep : PM → PM → Prop
  | relax (pm : PM) (conflict : List Lit)
      (hne : conflict ≠ [])
      (hidx : ∀ l ∈ conflict, pm.F.coreMapping l < pm.F.soft.length)
      (hnd : (conflict.map pm.F.coreMapping).Nodup)
      (hw : ∀ l ∈ conflict, computeCostCore pm.F conflict ≤ softWeightAt pm.F l) :
      GStep pm (relaxEvent pm conflict)
  | checkM (pm : PM) (modelCost : Nat) : GStep pm (checkModelPM pm modelCost)
  | updUB (pm : PM) (modelCost : Nat) : GStep pm (weightSearchSatStep pm modelCost)
  | ubToLb (pm : PM) :
      GStep pm (if pm.lbCost < pm.ubCost then { pm with ubCost := pm.lbCost } else pm)
  | harden (pm : PM) (model : List LBool) :
      GStep pm { hardenClauses pm model with
                 hardAbsorbed := pm.hardAbsorbed + (softSum pm.F - softSum (hardenClauses pm model).F) }
  | strat (pm : PM) (W : Nat) : GStep pm { pm with F := { pm.F with maxWeight := W } }
  | sync (pm : PM) : GStep pm { pm with softs_added := pm.F.soft.length }
  | assume (pm : PM) : GStep pm (setAssumptions pm).2
  | linPrep (pm : PM) (pt : ProblemType) (k : Nat) :
      GStep pm { pm with F := { pm.F with problemType := pt }, nbCurrentSoft := k }

/-- Any number of solver operations in sequence. -/
def GSteps : PM → PM → Prop := Relation.ReflTransGen GStep

/-- C7 counterexample: the formula holding one soft clause of weight 0
(a hardened clause), queried at `w = 2`. -/
def F7 : Formula :=
  { nVars := 1
    hard := []
    soft := [⟨0, [mkLit 0 false], none⟩]
    maxWeight := 2
    problemType := ProblemType.weighted
    coreMapping := fun _ => 0 }

/-- A concrete weighted formula for exercising `computeCostCore` and
`relaxCore`: two unit softs of weights 5 and 7, guarded by the assumption
literals `~x0` and `~x1`. -/
def F6 : Formula :=
  { nVars := 2
    hard := []
    soft := [⟨5, [mkLit 0 true], some (mkLit 0 true)⟩, ⟨7, [mkLit 1 true], some (mkLit 1 true)⟩]
    maxWeight := 5
    problemType := ProblemType.weighted
    coreMapping := fun l => l.var }

def conflict6 : List Lit := [mkLit 0 true, mkLit 1 true]

/-- C4 counterexample state: a two-soft formula in standard (non
varying-resolution) mode in which only the first soft clause has been
pushed to the oracle (`softs_added = 1`) — the state `setAssumptions` runs
in right after `relaxCore` created a new soft clause inside the
`weightDisjointCores` loop. -/
def pm4 : PM :=
  { cfg := { lins := 1, varyingres := false, varyingresCG := false,
             delete_before_lin := false, varresFactor := 2 }
    F := { nVars := 4
           hard := []
           soft := [⟨5, [mkLit 2 true], some (mkLit 2 false)⟩,
                    ⟨5, [mkLit 3 true], some (mkLit 3 false)⟩]
           maxWeight := 5
           problemType := ProblemType.weighted
           coreMapping := fun l => l.var }
    lbCost := 0, ubCost := 10, known_gap := 10, maxw_nothardened := 5
    num_hardened := 0, softs_added := 1, nbCurrentSoft := 0, nbCores := 1
    oracleHard := [], hardAbsorbed := 0 }

/-- Maximum of a list of weights (0 when empty). -/
def listMax (l : List Nat) : Nat := l.foldr max 0

/-- A concrete state for exercising the hardener: one active soft clause
of weight 5, gap `ubCost - lbCost = 1`, eager (non-lazy) mode. -/
def pm3 : PM :=
  { cfg := { lins := 1, varyingres := false, varyingresCG := false,
             delete_before_lin := true, varresFactor := 2 }
    F := { nVars := 2
           hard := []
           soft := [⟨5, [mkLit 0 false], some (mkLit 1 false)⟩]
           maxWeight := 5
           problemType := ProblemType.weighted
           coreMapping := fun _ => 0 }
    lbCost := 9, ubCost := 10, known_gap := 1, maxw_nothardened := 5
    num_hardened := 0, softs_added := 1, nbCurrentSoft := 1, nbCores := 0
    oracleHard := [], hardAbsorbed := 0 }

def model3 : List LBool := [LBool.ltrue]

/-- The C3 counterexample state: one soft clause synchronised with the
oracle (`softs_added = 1`, weight 1) and one active soft clause of weight
10 appended by `relaxCore` since the last `updateSolver`; the gap
`ubCost - lbCost` is 1.  Reachable, e.g., from softs 10{x1}, 10{~x1},
5{y}, 5{~y}, 1{z} with hard {~z}: the core-guided phase relaxes both
heavy cores (lbCost 15, ubCost 16) and the drivers call `hardenClauses`
before `updateSolver`. -/
def pm3c : PM :=
  { cfg := { lins := 1, varyingres := false, varyingresCG := false,
             delete_before_lin := false, varresFactor := 2 }
    F := { nVars := 4
           hard := []
           soft := [⟨1, [mkLit 0 false], some (mkLit 1 false)⟩,
                    ⟨10, [mkLit 2 false], some (mkLit 3 false)⟩]
           maxWeight := 1
           problemType := ProblemType.weighted
           coreMapping := fun l => l.var }
    lbCost := 15, ubCost := 16, known_gap := 1, maxw_nothardened := 10
    num_hardened := 0, softs_added := 1, nbCurrentSoft := 1, nbCores := 2
    oracleHard := [], hardAbsorbed := 0 }

def model3c : List LBool := [LBool.lfalse]

/-- A three-literal core over the assumption literals of `F2w`. -/
def F2w : Formula :=
  { nVars := 3
    hard := []
    soft := [⟨4, [mkLit 0 true], some (mkLit 0 true)⟩,
             ⟨4, [mkLit 1 true], some (mkLit 1 true)⟩,
             ⟨4, [mkLit 2 true], some (mkLit 2 true)⟩]
    maxWeight := 4
    problemType := ProblemType.weighted
    coreMapping := fun l => l.var }

def core2 : List Lit := [mkLit 0 true, mkLit 1 true, mkLit 2 true]

/-- The rewriting `relaxCore` performs on one soft clause (lines 514-520):
weight reduced by `w`; assumption cleared when it reaches 0. -/
def relaxApply (w : Nat) (sc : SoftClause) : SoftClause :=
  if sc.weight - w = 0 then { sc with weight := 0, assumption_var := none }
  else { sc with weight := sc.weight - w }

/-- Weight carried by a soft-clause list. -/
def sumW (L : List SoftClause) : Nat := (L.map (·.weight)).sum

/-- The solver state around `F6`, used to exercise `relaxCore`. -/
def pm10 : PM :=
  { cfg := { lins := 1, varyingres := false, varyingresCG := false,
             delete_before_lin := false, varresFactor := 2 }
    F := F6
    lbCost := 0, ubCost := 12, known_gap := 12, maxw_nothardened := 12
    num_hardened := 0, softs_added := 2, nbCurrentSoft := 2, nbCores := 0
    oracleHard := [], hardAbsorbed := 0 }

/-- The C8 counterexample state: three soft clauses of weight 9,
`varres_factor = 2`. -/
def pm8 : PM :=
  { cfg := { lins := 1, varyingres := false, varyingresCG := true,
             delete_before_lin := false, varresFactor := 2 }
    F := { nVars := 3
           hard := []
           soft := [⟨9, [mkLit 0 true], some (mkLit 0 true)⟩,
                    ⟨9, [mkLit 1 true], some (mkLit 1 true)⟩,
                    ⟨9, [mkLit 2 true], some (mkLit 2 true)⟩]
           maxWeight := 9
           problemType := ProblemType.weighted
           coreMapping := fun l => l.var }
    lbCost := 0, ubCost := 27, known_gap := 27, maxw_nothardened := 27
    num_hardened := 0, softs_added := 3, nbCurrentSoft := 3, nbCores := 0
    oracleHard := [], hardAbsorbed := 0 }

lemma foldl_max_shift (l : List Nat) : ∀ a : Nat, l.foldl max a = max a (l.foldl max 0) := by
  induction l with
  | nil => intro a; simp
  | cons u t ih =>
    intro a
    simp only [List.foldl_cons]
    rw [ih (max a u), ih (max 0 u)]
    omega

lemma foldl_max_filter_pos (l : List Nat) :
    (l.filter (fun u => decide (0 < u))).foldl max 0 = l.foldl max 0 := by
  induction l with
  | nil => simp
  | cons u t ih =>
    by_cases hu : 0 < u
    · rw [List.filter_cons_of_pos (by simpa using hu)]
      simp only [List.foldl_cons]
      rw [foldl_max_shift, foldl_max_shift t, ih]
    · have hu0 : u = 0 := by omega
      rw [List.filter_cons_of_neg (by simp [hu0])]
      simp only [List.foldl_cons, hu0]
      simpa using ih

lemma le_foldl_max (l : List Nat) : ∀ x ∈ l, x ≤ l.foldl max 0 := by
  induction l with
  | nil => simp
  | cons u t ih =>
    intro x hx
    simp only [List.foldl_cons]
    rw [foldl_max_shift]
    rcases List.mem_cons.mp hx with h | h
    · omega
    · have := ih x h; omega

lemma findNextWeight_foldl_filter (F : Formula) (w : Nat) :
    findNextWeight F w = ((F.soft.map (·.weight)).filter (fun u => decide (u < w))).foldl max 1 := by
  unfold findNextWeight
  have hfil : ∀ (l : List SoftClause) (a : Nat),
      l.foldl (fun nextWeight sc =>
        if sc.weight > nextWeight ∧ sc.weight < w then sc.weight else nextWeight) a
      = ((l.map (·.weight)).filter (fun u => decide (u < w))).foldl max a := by
    intro l
    induction l with
    | nil => intro a; rfl
    | cons sc t ih =>
      intro a
      by_cases h1 : sc.weight < w
      · rw [List.map_cons, List.filter_cons_of_pos (by simpa using h1)]
        simp only [List.foldl_cons]
        rw [ih]
        congr 1
        by_cases h2 : sc.weight > a <;> simp [h1, h2] <;> omega
      · rw [List.map_cons, List.filter_cons_of_neg (by simpa using h1)]
        simp only [List.foldl_cons]
        rw [ih]
        congr 1
        simp [h1]
  exact hfil F.soft 1

/-- C7, counterexample: on a formula with a (hardened) soft clause of
weight 0, a weight strictly below `w = 2` does occur among the soft
clauses, and the greatest such weight is 0, yet `findNextWeight` returns
1: the claim's description of the return value is false on this input. -/
theorem findNextWeight_claim_false :
    ((F7.soft.map (·.weight)).filter (fun u => decide (u < 2))).isEmpty = false ∧
    specNextWeight F7 2 = 0 ∧
    findNextWeight F7 2 = 1 ∧
    (1 : Nat) ≠ 0 := by
  refine ⟨rfl, rfl, ?_, by omega⟩
  decide

/-- C7 (amended): for every input weight `w`, `findNextWeight` returns
the greatest positive weight occurring among the formula's soft clauses
that is strictly less than `w`, or 1 if no soft clause has a positive
weight strictly less than `w` (weight-0 clauses, i.e. hardened ones, are
ignored). -/
theorem findNextWeight_eq_specPos (F : Formula) (w : Nat) :
    findNextWeight F w = specNextWeightPos F w := by
  rw [findNextWeight_foldl_filter]
  unfold specNextWeightPos
  set ws := F.soft.map (·.weight) with hws
  have hsplit : ws.filter (fun u => decide (0 < u ∧ u < w))
      = (ws.filter (fun u => decide (u < w))).filter (fun u => decide (0 < u)) := by
    rw [List.filter_filter]
    apply List.filter_congr
    intro u _
    by_cases h1 : 0 < u <;> by_cases h2 : u < w <;> simp [h1, h2]
  rw [hsplit]
  set S := ws.filter (fun u => decide (u < w)) with hS
  set P := S.filter (fun u => decide (0 < u)) with hP
  rw [foldl_max_shift S 1]
  have hz : P.foldl max 0 = S.foldl max 0 := foldl_max_filter_pos S
  cases heq : P.isEmpty with
  | true =>
    have hnil : P = [] := List.isEmpty_iff.mp heq
    simp only [heq, if_true]
    rw [← hz, hnil]
    simp
  | false =>
    have hne : P ≠ [] := by
      intro h
      rw [h] at heq
      simp at heq
    simp only [heq]
    rw [← hz]
    have hle : ∃ x ∈ P, 0 < x := by
      obtain ⟨x, hx⟩ := List.exists_mem_of_ne_nil P hne
      exact ⟨x, hx, by simpa using List.of_mem_filter hx⟩
    obtain ⟨x, hx, hxpos⟩ := hle
    have hxle : x ≤ P.foldl max 0 := le_foldl_max P x hx
    have : 1 ≤ P.foldl max 0 := by omega
    simp only [Bool.false_eq_true, if_false]
    omega

lemma foldl_ite_min (l : List Nat) :
    ∀ a : Nat, l.foldl (fun acc x => if x < acc then x else acc) a = l.foldl min a := by
  induction l with
  | nil => intro a; rfl
  | cons u t ih =>
    intro a
    simp only [List.foldl_cons]
    rw [ih]
    congr 1
    rcases Nat.lt_or_ge u a with h | h
    · rw [if_pos h, Nat.min_eq_right (Nat.le_of_lt h)]
    · rw [if_neg (Nat.not_lt.mpr h), Nat.min_eq_left h]

lemma foldl_min_le_init (l : List Nat) : ∀ a : Nat, l.foldl min a ≤ a := by
  induction l with
  | nil => intro a; simp
  | cons u t ih =>
    intro a
    simp only [List.foldl_cons]
    have := ih (min a u)
    omega

lemma foldl_min_le_mem (l : List Nat) : ∀ (a x : Nat), x ∈ l → l.foldl min a ≤ x := by
  induction l with
  | nil => simp
  | cons u t ih =>
    intro a x hx
    simp only [List.foldl_cons]
    rcases List.mem_cons.mp hx with h | h
    · have := foldl_min_le_init t (min a u)
      omega
    · exact ih (min a u) x h

lemma foldl_min_mem_or (l : List Nat) : ∀ a : Nat, l.foldl min a = a ∨ l.foldl min a ∈ l := by
  induction l with
  | nil => intro a; left; rfl
  | cons u t ih =>
    intro a
    simp only [List.foldl_cons]
    rcases ih (min a u) with h | h
    · rcases Nat.le_total a u with hau | hau
      · left; rw [h, Nat.min_eq_left hau]
      · right; rw [h, Nat.min_eq_right hau]; exact List.mem_cons_self u t
    · right; exact List.mem_cons_of_mem u h

lemma computeCostCore_weighted (F : Formula) (conflict : List Lit)
    (hpt : F.problemType = ProblemType.weighted) :
    computeCostCore F conflict = (conflict.map (softWeightAt F)).foldl min UINT64_MAX := by
  unfold computeCostCore
  rw [hpt, if_neg (by simp)]
  have h := foldl_ite_min (conflict.map (softWeightAt F)) UINT64_MAX
  rw [List.foldl_map, List.foldl_map] at h
  rw [List.foldl_map]
  exact h

/-- C6: for every non-empty conflict, `computeCostCore` returns 1 when
the formula is unweighted, and otherwise returns the minimum, over the
conflict's literals `l`, of the weight of the soft clause at index
`coreMapping[l]` (the minimum is characterised as a value occurring among
those weights that is a lower bound for all of them; the weights fit in
64 bits, as in the source). -/
theorem computeCostCore_spec (F : Formula) (conflict : List Lit)
    (hne : conflict ≠ [])
    (hb : ∀ l ∈ conflict, softWeightAt F l ≤ UINT64_MAX) :
    (F.problemType = ProblemType.unweighted → computeCostCore F conflict = 1) ∧
    (F.problemType = ProblemType.weighted →
      computeCostCore F conflict ∈ conflict.map (softWeightAt F) ∧
      ∀ l ∈ conflict, computeCostCore F conflict ≤ softWeightAt F l) := by
  constructor
  · intro h
    unfold computeCostCore
    rw [h]
    rfl
  · intro h
    rw [computeCostCore_weighted F conflict h]
    set ws := conflict.map (softWeightAt F) with hws
    constructor
    · rcases foldl_min_mem_or ws UINT64_MAX with hcase | hcase
      · obtain ⟨l0, hl0⟩ := List.exists_mem_of_ne_nil conflict hne
        have hx : softWeightAt F l0 ∈ ws := List.mem_map_of_mem _ hl0
        have h1 : ws.foldl min UINT64_MAX ≤ softWeightAt F l0 := foldl_min_le_mem ws _ _ hx
        have h2 : softWeightAt F l0 ≤ UINT64_MAX := hb l0 hl0
        have : ws.foldl min UINT64_MAX = softWeightAt F l0 := by omega
        rw [this]
        exact hx
      · exact hcase
    · intro l hl
      exact foldl_min_le_mem ws _ _ (List.mem_map_of_mem _ hl)

/-- C6 witness: on `F6` with the two-literal conflict, the computed core
cost occurs among the pointed-to weights and is a lower bound for them. -/
theorem computeCostCore_spec_witness :
    computeCostCore F6 conflict6 ∈ conflict6.map (softWeightAt F6) ∧
    computeCostCore F6 conflict6 ≤ softWeightAt F6 (mkLit 1 true) := by
  have h := (computeCostCore_spec F6 conflict6 (by decide) (by decide)).2 rfl
  exact ⟨h.1, h.2 (mkLit 1 true) (by decide)⟩

lemma setAssumptions_foldl (cfg : Config) (mw : Nat) (l : List SoftClause) :
    ∀ acc : List Lit × Nat,
      l.foldl
        (fun (acc : List Lit × Nat) sc =>
          if shouldAdd cfg mw sc then
            (acc.1 ++ [lneg (theLit sc.assumption_var)], acc.2 + 1)
          else acc)
        acc
      = (acc.1 ++ (l.filter (shouldAdd cfg mw)).map (fun sc => lneg (theLit sc.assumption_var)),
         acc.2 + (l.filter (shouldAdd cfg mw)).length) := by
  induction l with
  | nil => intro acc; simp
  | cons sc t ih =>
    intro acc
    by_cases h : shouldAdd cfg mw sc
    · rw [List.filter_cons_of_pos h]
      simp only [List.foldl_cons, h, if_true]
      rw [ih]
      simp only [List.map_cons, List.length_cons, Prod.mk.injEq]
      refine ⟨?_, by omega⟩
      rw [List.append_assoc]
      rfl
    · rw [List.filter_cons_of_neg (by simpa using h)]
      simp only [List.foldl_cons, h, if_false]
      exact ih acc

/-- C4 (amended): after every call to `setAssumptions`, the assumption
vector is exactly the list of negated assumption literals of the soft
clauses among the first `softs_added` ones (those already synchronised
with the oracle) whose weight passes the stratification test — weight at
least `max_weight` in standard mode, `weight / max_weight > 0` in
varying-resolution mode — and `nbCurrentSoft` is the number of such
clauses. -/
theorem setAssumptions_spec (pm : PM) :
    (setAssumptions pm).1 =
      ((pm.F.soft.take pm.softs_added).filter (shouldAdd pm.cfg pm.F.maxWeight)).map
        (fun sc => lneg (theLit sc.assumption_var)) ∧
    (setAssumptions pm).2.nbCurrentSoft =
      ((pm.F.soft.take pm.softs_added).filter (shouldAdd pm.cfg pm.F.maxWeight)).length := by
  unfold setAssumptions
  rw [setAssumptions_foldl]
  constructor
  · simp
  · simp

/-- C4, counterexample: in `pm4` the second soft clause is in the formula
and passes the weight test (weight 5 ≥ max_weight 5, standard mode), yet
after `setAssumptions` the assumption vector does not contain its negated
assumption literal and `nbCurrentSoft` is 1, not the number of qualifying
clauses in the formula (2): the loop ranges over `softs_added` clauses
only, not over every soft clause currently in the formula. -/
theorem setAssumptions_claim_false :
    (setAssumptions pm4).1 = [lneg (mkLit 2 false)] ∧
    pm4.F.soft[1]? = some ⟨5, [mkLit 3 true], some (mkLit 3 false)⟩ ∧
    shouldAdd pm4.cfg pm4.F.maxWeight ⟨5, [mkLit 3 true], some (mkLit 3 false)⟩ = true ∧
    lneg (mkLit 3 false) ∉ (setAssumptions pm4).1 ∧
    (setAssumptions pm4).2.nbCurrentSoft = 1 ∧
    (pm4.F.soft.filter (shouldAdd pm4.cfg pm4.F.maxWeight)).length = 2 := by
  refine ⟨by decide, by decide, by decide, by decide, by decide, by decide⟩

lemma hardenLoop_get (bound : Nat) (model : List LBool) (L : List SoftClause) :
    ∀ i : Nat,
      (hardenLoop bound model L).softs[i]? =
        (L[i]?).map (fun sc =>
          if hardenCond bound model sc then { sc with weight := 0, assumption_var := none } else sc) := by
  induction L with
  | nil => intro i; simp [hardenLoop]
  | cons sc t ih =>
    intro i
    by_cases h : hardenCond bound model sc
    · simp only [hardenLoop, h, if_true]
      cases i with
      | zero => simp [h]
      | succ j => simpa using ih j
    · simp only [hardenLoop, h, if_false]
      cases i with
      | zero => simp [h]
      | succ j => simpa using ih j

lemma hardenLoop_pushed (bound : Nat) (model : List LBool) (L : List SoftClause) :
    (hardenLoop bound model L).pushed =
      (L.filter (hardenCond bound model)).map (fun sc => [lneg (theLit sc.assumption_var)]) := by
  induction L with
  | nil => simp [hardenLoop]
  | cons sc t ih =>
    by_cases h : hardenCond bound model sc
    · rw [List.filter_cons_of_pos h]
      simp only [hardenLoop, h, if_true, List.map_cons]
      rw [ih]
    · rw [List.filter_cons_of_neg (by simpa using h)]
      simp only [hardenLoop, h, if_false]
      exact ih

lemma hardenLoop_count (bound : Nat) (model : List LBool) (L : List SoftClause) :
    (hardenLoop bound model L).count = (L.filter (hardenCond bound model)).length := by
  induction L with
  | nil => simp [hardenLoop]
  | cons sc t ih =>
    by_cases h : hardenCond bound model sc
    · rw [List.filter_cons_of_pos h]
      simp only [hardenLoop, h, if_true, List.length_cons]
      rw [ih]
    · rw [List.filter_cons_of_neg (by simpa using h)]
      simp only [hardenLoop, h, if_false]
      exact ih

lemma hardenLoop_maxw (bound : Nat) (model : List LBool) (L : List SoftClause) :
    (hardenLoop bound model L).maxw =
      listMax ((L.filter (fun sc => !(hardenCond bound model sc))).map (·.weight)) := by
  induction L with
  | nil => simp [hardenLoop, listMax]
  | cons sc t ih =>
    simp only [hardenLoop]
    by_cases h : hardenCond bound model sc
    · rw [if_pos h, List.filter_cons_of_neg (by simpa using h)]
      exact ih
    · rw [if_neg h, List.filter_cons_of_pos (by simpa using h)]
      show (if sc.weight > (hardenLoop bound model t).maxw then sc.weight
            else (hardenLoop bound model t).maxw) = _
      rw [ih]
      unfold listMax
      simp only [List.map_cons, List.foldr_cons]
      rcases Nat.lt_or_ge
          (((t.filter (fun sc => !hardenCond bound model sc)).map (·.weight)).foldr max 0)
          sc.weight with hlt | hge
      · rw [if_pos hlt]
        omega
      · rw [if_neg (Nat.not_lt.mpr hge)]
        omega

lemma hardenLoop_length (bound : Nat) (model : List LBool) (L : List SoftClause) :
    (hardenLoop bound model L).softs.length = L.length := by
  induction L with
  | nil => rfl
  | cons sc t ih =>
    simp only [hardenLoop]
    by_cases h : hardenCond bound model sc
    · rw [if_pos h]
      show (hardenLoop bound model t).softs.length + 1 = t.length + 1
      rw [ih]
    · rw [if_neg h]
      show (hardenLoop bound model t).softs.length + 1 = t.length + 1
      rw [ih]

/-- C3 (amended): when the hardener runs with `gap = ubCost - lbCost`,
an active soft clause among the inspected ones — the first `softs_added`
soft clauses, i.e. those already synchronised with the oracle; clauses
appended by `relaxCore` since the last `updateSolver` are not inspected —
(body of size 1, weight > 0, live assumption literal `a`) is hardened — weight zeroed, assumption cleared —
if and only if its weight exceeds the gap, or equals the gap and its body
is satisfied by the model the hardener reads; a hardened clause's unit
`{~a}` is pushed to the oracle and, unless lazy mode is active, to the
formula store; a clause failing the test is kept verbatim; `num_hardened`
grows by the number of hardened clauses and `maxw_nothardened` ends as
the maximum weight among the inspected clauses that were not hardened. -/
theorem hardenClauses_spec (pm : PM) (model : List LBool) (i : Nat) (sc : SoftClause) (a : Lit)
    (hi : i < pm.softs_added)
    (hsc : pm.F.soft[i]? = some sc)
    (hsz : sc.clause.length = 1)
    (hw : 0 < sc.weight)
    (ha : sc.assumption_var = some a) :
    ((hardenClauses pm model).F.soft[i]? =
      some (if hardenCond (gap64 pm.ubCost pm.lbCost) model sc
            then { sc with weight := 0, assumption_var := none } else sc)) ∧
    (hardenCond (gap64 pm.ubCost pm.lbCost) model sc = true →
      [lneg a] ∈ (hardenClauses pm model).oracleHard ∧
      (hardenLazily pm.cfg = false → [lneg a] ∈ (hardenClauses pm model).F.hard)) ∧
    (hardenClauses pm model).num_hardened =
      pm.num_hardened +
        ((pm.F.soft.take pm.softs_added).filter (hardenCond (gap64 pm.ubCost pm.lbCost) model)).length ∧
    (hardenClauses pm model).maxw_nothardened =
      listMax (((pm.F.soft.take pm.softs_added).filter
        (fun sc => !(hardenCond (gap64 pm.ubCost pm.lbCost) model sc))).map (·.weight)) := by
  have htake : (pm.F.soft.take pm.softs_added)[i]? = some sc := by
    rw [List.getElem?_take, if_pos hi]
    exact hsc
  have hitake : i < (pm.F.soft.take pm.softs_added).length := by
    rcases List.getElem?_eq_some.mp htake with ⟨h, _⟩
    exact h
  have hmem : sc ∈ pm.F.soft.take pm.softs_added := by
    rcases List.getElem?_eq_some.mp htake with ⟨hlt2, heq⟩
    exact heq ▸ List.getElem_mem hlt2
  refine ⟨?_, ?_, ?_, ?_⟩
  · show ((hardenLoop (gap64 pm.ubCost pm.lbCost) model (pm.F.soft.take pm.softs_added)).softs
        ++ pm.F.soft.drop pm.softs_added)[i]? = _
    rw [List.getElem?_append, if_pos (by rw [hardenLoop_length]; exact hitake)]
    rw [hardenLoop_get, htake]
    rfl
  · intro hc
    have hpushmem :
        [lneg a] ∈ (hardenLoop (gap64 pm.ubCost pm.lbCost) model (pm.F.soft.take pm.softs_added)).pushed := by
      rw [hardenLoop_pushed]
      have hmf : sc ∈ (pm.F.soft.take pm.softs_added).filter
          (hardenCond (gap64 pm.ubCost pm.lbCost) model) :=
        List.mem_filter.mpr ⟨hmem, hc⟩
      have hform : [lneg a] = [lneg (theLit sc.assumption_var)] := by rw [ha]; rfl
      rw [hform]
      exact List.mem_map_of_mem _ hmf
    constructor
    · show [lneg a] ∈ pm.oracleHard ++
        (hardenLoop (gap64 pm.ubCost pm.lbCost) model (pm.F.soft.take pm.softs_added)).pushed
      exact List.mem_append_right _ hpushmem
    · intro hlz
      have hcalc : (hardenClauses pm model).F.hard
          = pm.F.hard ++
            (hardenLoop (gap64 pm.ubCost pm.lbCost) model (pm.F.soft.take pm.softs_added)).pushed := by
        show pm.F.hard ++ (if hardenLazily pm.cfg then [] else _) = _
        rw [hlz]
        simp
      rw [hcalc]
      exact List.mem_append_right _ hpushmem
  · show pm.num_hardened +
        (hardenLoop (gap64 pm.ubCost pm.lbCost) model (pm.F.soft.take pm.softs_added)).count = _
    rw [hardenLoop_count]
  · show (hardenLoop (gap64 pm.ubCost pm.lbCost) model (pm.F.soft.take pm.softs_added)).maxw = _
    rw [hardenLoop_maxw]

/-- C3 witness: in `pm3` (gap 1, weight 5 > 1) the single soft clause is
hardened: zeroed and cleared, its negated-assumption unit reaches the
oracle and the formula store, `num_hardened` becomes 1 and no unhardened
weight remains. -/
theorem hardenClauses_spec_witness :
    (hardenClauses pm3 model3).F.soft[0]? = some ⟨0, [mkLit 0 false], none⟩ ∧
    [lneg (mkLit 1 false)] ∈ (hardenClauses pm3 model3).oracleHard ∧
    [lneg (mkLit 1 false)] ∈ (hardenClauses pm3 model3).F.hard ∧
    (hardenClauses pm3 model3).num_hardened = 1 ∧
    (hardenClauses pm3 model3).maxw_nothardened = 0 := by
  have h := hardenClauses_spec pm3 model3 0 ⟨5, [mkLit 0 false], some (mkLit 1 false)⟩
      (mkLit 1 false) (by decide) (by decide) (by decide) (by decide) (by decide)
  have hc : hardenCond (gap64 pm3.ubCost pm3.lbCost) model3
      ⟨5, [mkLit 0 false], some (mkLit 1 false)⟩ = true := by decide
  refine ⟨?_, (h.2.1 hc).1, (h.2.1 hc).2 (by decide), ?_, ?_⟩
  · rw [h.1, if_pos hc]
  · rw [h.2.2.1]
    decide
  · rw [h.2.2.2]
    decide

lemma getD_mem_of_lt {α : Type} [Inhabited α] (l : List α) (i : Nat) (h : i < l.length) :
    l.getD i default ∈ l := by
  rw [List.getD_eq_getElem l default h]
  exact List.getElem_mem h

lemma foldl_update_at (f : Nat → Lit) (g : Nat → Nat)
    (hinj : ∀ i j, f i = f j → i = j) (m0 : Lit → Nat) :
    ∀ (k i : Nat), i < k →
      ((List.range k).foldl (fun m j => fun l => if l = f j then g j else m l) m0) (f i) = g i := by
  intro k
  induction k with
  | zero => intro i hi; omega
  | succ k ih =>
    intro i hi
    rw [List.range_succ, List.foldl_append]
    simp only [List.foldl_cons, List.foldl_nil]
    by_cases hik : i = k
    · subst hik
      simp
    · have hlt : i < k := by omega
      have hne : f i ≠ f k := fun h => hik (hinj i k h)
      simp only [hne, if_neg]
      exact ih i hlt

lemma emrChain_highvar (lins : Nat) (F : Formula) (core : List Lit) :
    ∀ cl ∈ emrChain lins F core, ∃ x, x ∈ cl ∧ F.nVars ≤ x.var := by
  intro cl hcl
  unfold emrChain at hcl
  by_cases hn : core.length > 2
  · rw [if_pos hn] at hcl
    rcases List.mem_flatMap.mp hcl with ⟨i, _, hmem⟩
    rcases List.mem_append.mp hmem with h | h
    · by_cases hl : lins = 0
      · rw [if_pos hl] at h
        simp only [List.mem_singleton] at h
        subst h
        exact ⟨lneg (dLit F i), List.mem_cons_self _ _, Nat.le_add_right _ _⟩
      · rw [if_neg hl] at h
        simp at h
    · rcases List.mem_cons.mp h with h1 | h1
      · subst h1
        exact ⟨dLit F i, List.mem_cons_self _ _, Nat.le_add_right _ _⟩
      · simp only [List.mem_singleton] at h1
        subst h1
        exact ⟨dLit F i, List.mem_cons_self _ _, Nat.le_add_right _ _⟩
  · rw [if_neg hn] at hcl
    simp at hcl

lemma emrFinals_highvar (F : Formula) (core : List Lit) :
    ∀ cl ∈ emrFinals F core, ∃ x, x ∈ cl ∧ F.nVars ≤ x.var := by
  intro cl hcl
  unfold emrFinals at hcl
  by_cases hn : core.length > 1
  · rw [if_pos hn] at hcl
    rcases List.mem_cons.mp hcl with h | h
    · subst h
      exact ⟨dLit F (core.length - 2), List.mem_cons_self _ _, Nat.le_add_right _ _⟩
    · simp only [List.mem_singleton] at h
      subst h
      exact ⟨lneg (dLit F (core.length - 2)), List.mem_cons_self _ _, Nat.le_add_right _ _⟩
  · rw [if_neg hn] at hcl
    simp at hcl

lemma emrReified_highvar (F : Formula) (core : List Lit) :
    ∀ cl ∈ emrReified F core, ∃ x, x ∈ cl ∧ F.nVars ≤ x.var := by
  intro cl hcl
  rcases List.mem_map.mp hcl with ⟨i, _, heq⟩
  subst heq
  refine ⟨lneg (dLit F i), ?_, Nat.le_add_right _ _⟩
  exact List.mem_cons_of_mem _ (List.mem_cons_self _ _)

lemma core_not_mem_highvar_parts (lins : Nat) (F : Formula) (core : List Lit)
    (hcv : ∀ l ∈ core, l.var < F.nVars) :
    core ∉ emrChain lins F core ∧ core ∉ emrFinals F core ∧ core ∉ emrReified F core := by
  refine ⟨fun hm => ?_, fun hm => ?_, fun hm => ?_⟩
  · rcases emrChain_highvar lins F core core hm with ⟨x, hx, hv⟩
    have := hcv x hx
    omega
  · rcases emrFinals_highvar F core core hm with ⟨x, hx, hv⟩
    have := hcv x hx
    omega
  · rcases emrReified_highvar F core core hm with ⟨x, hx, hv⟩
    have := hcv x hx
    omega

lemma emrChain_len2 (lins : Nat) (F : Formula) (core : List Lit) (hl : lins ≠ 0) :
    ∀ cl ∈ emrChain lins F core, cl.length = 2 := by
  intro cl hcl
  unfold emrChain at hcl
  by_cases hn : core.length > 2
  · rw [if_pos hn] at hcl
    rcases List.mem_flatMap.mp hcl with ⟨i, _, hmem⟩
    rw [if_neg hl] at hmem
    simp only [List.nil_append] at hmem
    rcases List.mem_cons.mp hmem with h | h
    · subst h; rfl
    · simp only [List.mem_singleton] at h
      subst h; rfl
  · rw [if_neg hn] at hcl
    simp at hcl

lemma emrFinals_len2 (F : Formula) (core : List Lit) :
    ∀ cl ∈ emrFinals F core, cl.length = 2 := by
  intro cl hcl
  unfold emrFinals at hcl
  by_cases hn : core.length > 1
  · rw [if_pos hn] at hcl
    rcases List.mem_cons.mp hcl with h | h
    · subst h; rfl
    · simp only [List.mem_singleton] at h
      subst h; rfl
  · rw [if_neg hn] at hcl
    simp at hcl

lemma emrReified_shape (F : Formula) (core : List Lit) :
    ∀ cl ∈ emrReified F core, ∃ j, j < core.length - 1 ∧
      cl = [lneg (core.getD j default), lneg (dLit F j), aLit F core j] := by
  intro cl hcl
  rcases List.mem_map.mp hcl with ⟨j, hj, heq⟩
  exact ⟨j, List.mem_range.mp hj, heq.symm⟩

/-- C2: relaxing a non-empty core `b_0 ... b_{n-1}` with weight `w`
introduces exactly `n-1` fresh d-variables (and one fresh assumption
literal per new soft clause, `2(n-1)` fresh variables in all) and appends
exactly `n-1` new unit soft clauses of weight `w`; the `i`-th new soft is
the unit `{~a_i}` for the fresh `a_i`, reified through the hard clause
`{~b_i, ~d_i, a_i}`, with `coreMapping[a_i]` the index of the new soft
clause; among the appended hard clauses, the core disjunction and the
`d_i -> (b_{i+1} v d_{i+1})` direction appear if and only if `lins = 0`,
while the `(b_{i+1} v d_{i+1}) -> d_i` direction clauses and the final
clauses for `i = n-2` appear in every mode. -/
theorem encodeMaxRes_spec (lins : Nat) (F : Formula) (core : List Lit) (w : Nat)
    (hne : core ≠ []) (hcv : ∀ l ∈ core, l.var < F.nVars) :
    (encodeMaxRes lins F core w).soft.length = F.soft.length + (core.length - 1) ∧
    (encodeMaxRes lins F core w).nVars = F.nVars + (core.length - 1) + (core.length - 1) ∧
    (∀ i, i < core.length - 1 →
      (encodeMaxRes lins F core w).soft[F.soft.length + i]? =
        some ⟨w, [lneg (aLit F core i)], some (aLit F core i)⟩) ∧
    (∀ i, i < core.length - 1 → F.nVars ≤ (aLit F core i).var) ∧
    (∀ i, i < core.length - 1 →
      (encodeMaxRes lins F core w).coreMapping (aLit F core i) = F.soft.length + i) ∧
    (∀ i, i < core.length - 1 →
      [lneg (core.getD i default), lneg (dLit F i), aLit F core i] ∈ emrNewHard lins F core) ∧
    (encodeMaxRes lins F core w).hard = F.hard ++ emrNewHard lins F core ∧
    (core ∈ emrNewHard lins F core ↔ lins = 0) ∧
    (∀ i, i < core.length - 2 →
      ([lneg (dLit F i), dLit F (i + 1), core.getD (i + 1) default] ∈ emrNewHard lins F core
        ↔ lins = 0)) ∧
    (∀ i, i < core.length - 2 →
      [dLit F i, lneg (core.getD (i + 1) default)] ∈ emrNewHard lins F core ∧
      [dLit F i, lneg (dLit F (i + 1))] ∈ emrNewHard lins F core) ∧
    (1 < core.length →
      [dLit F (core.length - 2), lneg (core.getD (core.length - 1) default)]
        ∈ emrNewHard lins F core ∧
      [lneg (dLit F (core.length - 2)), core.getD (core.length - 1) default]
        ∈ emrNewHard lins F core) := by
  refine ⟨?_, rfl, ?_, ?_, ?_, ?_, rfl, ?_, ?_, ?_, ?_⟩
  · show (F.soft ++ emrNewSofts F core w).length = _
    rw [List.length_append]
    unfold emrNewSofts
    rw [List.length_map, List.length_range]
  · intro i hi
    show (F.soft ++ emrNewSofts F core w)[F.soft.length + i]? = _
    rw [List.getElem?_append_right (Nat.le_add_right _ _), Nat.add_sub_cancel_left]
    unfold emrNewSofts
    rw [List.getElem?_map, List.getElem?_range hi]
    rfl
  · intro i _
    exact Nat.le_add_right _ _ |>.trans (Nat.le_add_right _ _)
  · intro i hi
    show ((List.range (core.length - 1)).foldl
      (fun m j => fun l => if l = aLit F core j then F.soft.length + j else m l)
      F.coreMapping) (aLit F core i) = _
    exact foldl_update_at (aLit F core) (fun j => F.soft.length + j)
      (fun i j h => by
        have : F.nVars + (core.length - 1) + i = F.nVars + (core.length - 1) + j :=
          congrArg Lit.var h
        omega)
      F.coreMapping (core.length - 1) i hi
  · intro i hi
    unfold emrNewHard
    refine List.mem_append_right _ ?_
    unfold emrReified
    exact List.mem_map.mpr ⟨i, List.mem_range.mpr hi, rfl⟩
  · constructor
    · intro hmem
      by_contra hl
      unfold emrNewHard at hmem
      rw [if_neg hl] at hmem
      simp only [List.nil_append] at hmem
      rcases List.mem_append.mp hmem with h | h
      · rcases List.mem_append.mp h with h1 | h1
        · exact (core_not_mem_highvar_parts lins F core hcv).1 h1
        · exact (core_not_mem_highvar_parts lins F core hcv).2.1 h1
      · exact (core_not_mem_highvar_parts lins F core hcv).2.2 h
    · intro hl
      unfold emrNewHard
      rw [if_pos hl]
      exact List.mem_append_left _ (List.mem_append_left _
        (List.mem_append_left _ (List.mem_cons_self _ _)))
  · intro i hi
    constructor
    · intro hmem
      by_contra hl
      unfold emrNewHard at hmem
      rw [if_neg hl] at hmem
      simp only [List.nil_append] at hmem
      rcases List.mem_append.mp hmem with h | h
      · rcases List.mem_append.mp h with h1 | h1
        · have := emrChain_len2 lins F core hl _ h1
          simp at this
        · have := emrFinals_len2 F core _ h1
          simp at this
      · rcases emrReified_shape F core _ h with ⟨j, hj, heq⟩
        have hvar : F.nVars + i = (core.getD j default).var :=
          congrArg (fun l : List Lit => (l.headD default).var) heq
        have hjmem : core.getD j default ∈ core := getD_mem_of_lt core j (by omega)
        have := hcv _ hjmem
        omega
    · intro hl
      unfold emrNewHard
      refine List.mem_append_left _ (List.mem_append_left _ (List.mem_append_right _ ?_))
      unfold emrChain
      rw [if_pos (by omega)]
      refine List.mem_flatMap.mpr ⟨i, List.mem_range.mpr hi, ?_⟩
      rw [if_pos hl]
      exact List.mem_cons_self _ _
  · intro i hi
    constructor
    · unfold emrNewHard
      refine List.mem_append_left _ (List.mem_append_left _ (List.mem_append_right _ ?_))
      unfold emrChain
      rw [if_pos (by omega)]
      refine List.mem_flatMap.mpr ⟨i, List.mem_range.mpr hi, ?_⟩
      refine List.mem_append_right _ ?_
      exact List.mem_cons_self _ _
    · unfold emrNewHard
      refine List.mem_append_left _ (List.mem_append_left _ (List.mem_append_right _ ?_))
      unfold emrChain
      rw [if_pos (by omega)]
      refine List.mem_flatMap.mpr ⟨i, List.mem_range.mpr hi, ?_⟩
      refine List.mem_append_right _ ?_
      exact List.mem_cons_of_mem _ (List.mem_cons_self _ _)
  · intro hn
    constructor
    · unfold emrNewHard
      refine List.mem_append_left _ (List.mem_append_right _ ?_)
      unfold emrFinals
      rw [if_pos hn]
      exact List.mem_cons_self _ _
    · unfold emrNewHard
      refine List.mem_append_left _ (List.mem_append_right _ ?_)
      unfold emrFinals
      rw [if_pos hn]
      exact List.mem_cons_of_mem _ (List.mem_cons_self _ _)

/-- C2 witness: relaxing the size-3 core of `F2w` with weight 2 in hybrid
mode (`lins = 1`) appends two unit softs of weight 2 with fresh reified
assumptions and registered core mapping; the reification clause and the
always-emitted direction and final clauses are present, while the core
disjunction and the `d_i -> (b_{i+1} v d_{i+1})` clause are absent. -/
theorem encodeMaxRes_spec_witness :
    (encodeMaxRes 1 F2w core2 2).soft.length = F2w.soft.length + (core2.length - 1) ∧
    (encodeMaxRes 1 F2w core2 2).soft[F2w.soft.length + 0]? =
      some ⟨2, [lneg (aLit F2w core2 0)], some (aLit F2w core2 0)⟩ ∧
    (encodeMaxRes 1 F2w core2 2).coreMapping (aLit F2w core2 0) = F2w.soft.length + 0 ∧
    [lneg (core2.getD 0 default), lneg (dLit F2w 0), aLit F2w core2 0] ∈ emrNewHard 1 F2w core2 ∧
    decide (core2 ∈ emrNewHard 1 F2w core2) = false ∧
    decide ([lneg (dLit F2w 0), dLit F2w 1, core2.getD 1 default] ∈ emrNewHard 1 F2w core2) = false ∧
    [dLit F2w 0, lneg (core2.getD 1 default)] ∈ emrNewHard 1 F2w core2 ∧
    [dLit F2w 0, lneg (dLit F2w 1)] ∈ emrNewHard 1 F2w core2 ∧
    [dLit F2w 1, lneg (core2.getD 2 default)] ∈ emrNewHard 1 F2w core2 ∧
    [lneg (dLit F2w 1), core2.getD 2 default] ∈ emrNewHard 1 F2w core2 := by
  have h := encodeMaxRes_spec 1 F2w core2 2 (by decide) (by decide)
  refine ⟨h.1, h.2.2.1 0 (by decide), h.2.2.2.2.1 0 (by decide),
    h.2.2.2.2.2.1 0 (by decide), ?_, ?_,
    (h.2.2.2.2.2.2.2.2.2.1 0 (by decide)).1,
    (h.2.2.2.2.2.2.2.2.2.1 0 (by decide)).2,
    (h.2.2.2.2.2.2.2.2.2.2 (by decide)).1,
    (h.2.2.2.2.2.2.2.2.2.2 (by decide)).2⟩
  · refine decide_eq_false ?_
    intro hm
    have h0 := h.2.2.2.2.2.2.2.1.mp hm
    exact absurd h0 (by decide)
  · refine decide_eq_false ?_
    intro hm
    have h0 := (h.2.2.2.2.2.2.2.2.1 0 (by decide)).mp hm
    exact absurd h0 (by decide)

lemma relaxDecStep_length (w : Nat) (acc : List SoftClause × Nat) (idx : Nat) :
    ((relaxDecStep w acc idx).1).length = acc.1.length := by
  unfold relaxDecStep
  cases h : acc.1[idx]? with
  | none => rfl
  | some sc =>
    by_cases hz : sc.weight - w = 0 <;> simp [hz]

lemma decFold_length (w : Nat) (idxs : List Nat) :
    ∀ acc : List SoftClause × Nat,
      ((idxs.foldl (relaxDecStep w) acc).1).length = acc.1.length := by
  induction idxs with
  | nil => intro acc; rfl
  | cons j t ih =>
    intro acc
    simp only [List.foldl_cons]
    rw [ih]
    exact relaxDecStep_length w acc j

lemma relaxDecStep_get_ne (w : Nat) (acc : List SoftClause × Nat) (idx i : Nat) (h : idx ≠ i) :
    (relaxDecStep w acc idx).1[i]? = acc.1[i]? := by
  unfold relaxDecStep
  cases hg : acc.1[idx]? with
  | none => rfl
  | some sc =>
    by_cases hz : sc.weight - w = 0 <;> simp [hz, List.getElem?_set_ne h]

lemma decFold_get_not_mem (w : Nat) (idxs : List Nat) :
    ∀ (acc : List SoftClause × Nat) (i : Nat), i ∉ idxs →
      (idxs.foldl (relaxDecStep w) acc).1[i]? = acc.1[i]? := by
  induction idxs with
  | nil => intro acc i _; rfl
  | cons j t ih =>
    intro acc i hi
    simp only [List.foldl_cons]
    have hji : j ≠ i := fun h => hi (h ▸ List.mem_cons_self _ _)
    rw [ih _ i (fun h => hi (List.mem_cons_of_mem _ h))]
    exact relaxDecStep_get_ne w acc j i hji

lemma decFold_get_mem (w : Nat) (idxs : List Nat) :
    ∀ (acc : List SoftClause × Nat) (i : Nat), idxs.Nodup → i ∈ idxs → i < acc.1.length →
      (idxs.foldl (relaxDecStep w) acc).1[i]? = (acc.1[i]?).map (relaxApply w) := by
  induction idxs with
  | nil => intro acc i _ hi _; simp at hi
  | cons j t ih =>
    intro acc i hnd hi hlen
    simp only [List.foldl_cons]
    rcases List.mem_cons.mp hi with hij | hit
    · subst hij
      have hjt : i ∉ t := (List.nodup_cons.mp hnd).1
      rw [decFold_get_not_mem w t _ i hjt]
      obtain ⟨sc, hsc⟩ : ∃ sc, acc.1[i]? = some sc := by
        rcases h : acc.1[i]? with _ | sc
        · rw [List.getElem?_eq_none_iff] at h
          omega
        · exact ⟨sc, rfl⟩
      unfold relaxDecStep
      rw [hsc]
      by_cases hz : sc.weight - w = 0 <;>
        simp [hz, relaxApply, List.getElem?_set_eq_of_lt _ hlen]
    · have hji : j ≠ i := by
        intro h
        exact (List.nodup_cons.mp hnd).1 (h ▸ hit)
      have hlen2 : i < (relaxDecStep w acc j).1.length := by
        rw [relaxDecStep_length]; exact hlen
      rw [ih _ i (List.nodup_cons.mp hnd).2 hit hlen2]
      rw [relaxDecStep_get_ne w acc j i hji]

lemma sumW_set (L : List SoftClause) :
    ∀ (j : Nat) (sc a : SoftClause), L[j]? = some sc →
      sumW (L.set j a) + sc.weight = sumW L + a.weight := by
  induction L with
  | nil => intro j sc a h; simp at h
  | cons x t ih =>
    intro j sc a h
    cases j with
    | zero =>
      simp only [List.getElem?_cons_zero, Option.some.injEq] at h
      subst h
      simp only [List.set_cons_zero]
      unfold sumW
      simp only [List.map_cons, List.sum_cons]
      omega
    | succ j =>
      simp only [List.getElem?_cons_succ] at h
      simp only [List.set_cons_succ]
      unfold sumW
      simp only [List.map_cons, List.sum_cons]
      unfold sumW at ih
      have := ih j sc a h
      omega

lemma getD_of_getElem? {α : Type} [Inhabited α] {l : List α} {i : Nat} {a : α}
    (h : l[i]? = some a) : l.getD i default = a := by
  rw [List.getD_eq_getElem?_getD, h]
  rfl

lemma decFold_sum (w : Nat) (idxs : List Nat) :
    ∀ acc : List SoftClause × Nat, idxs.Nodup →
      (∀ i ∈ idxs, i < acc.1.length) →
      (∀ i ∈ idxs, w ≤ (acc.1.getD i default).weight) →
      sumW (idxs.foldl (relaxDecStep w) acc).1 + idxs.length * w = sumW acc.1 := by
  induction idxs with
  | nil => intro acc _ _ _; simp
  | cons j t ih =>
    intro acc hnd hlen hw
    simp only [List.foldl_cons]
    have hjlen : j < acc.1.length := hlen j (List.mem_cons_self _ _)
    obtain ⟨sc, hsc⟩ : ∃ sc, acc.1[j]? = some sc := by
      rcases h : acc.1[j]? with _ | sc
      · rw [List.getElem?_eq_none_iff] at h
        omega
      · exact ⟨sc, rfl⟩
    have hscw : w ≤ sc.weight := by
      have := hw j (List.mem_cons_self _ _)
      rw [getD_of_getElem? hsc] at this
      exact this
    have hset : (relaxDecStep w acc j).1 = acc.1.set j (relaxApply w sc) := by
      unfold relaxDecStep relaxApply
      rw [hsc]
      by_cases hz : sc.weight - w = 0 <;> simp [hz]
    have hw' : (relaxApply w sc).weight = sc.weight - w := by
      unfold relaxApply
      by_cases hz : sc.weight - w = 0 <;> simp [hz]
    have hsum1 : sumW (relaxDecStep w acc j).1 + w = sumW acc.1 := by
      rw [hset]
      have := sumW_set acc.1 j sc (relaxApply w sc) hsc
      omega
    have hrest := ih (relaxDecStep w acc j) (List.nodup_cons.mp hnd).2
      (fun i hi => by rw [relaxDecStep_length]; exact hlen i (List.mem_cons_of_mem _ hi))
      (fun i hi => by
        have hji : j ≠ i := by
          intro h
          exact (List.nodup_cons.mp hnd).1 (h ▸ hi)
        rw [List.getD_eq_getElem?_getD, relaxDecStep_get_ne w acc j i hji,
          ← List.getD_eq_getElem?_getD]
        exact hw i (List.mem_cons_of_mem _ hi))
    simp only [List.length_cons, Nat.succ_mul]
    omega

lemma decFold_num (w : Nat) (idxs : List Nat) :
    ∀ acc : List SoftClause × Nat, idxs.Nodup →
      (∀ i ∈ idxs, i < acc.1.length) →
      (idxs.foldl (relaxDecStep w) acc).2 =
        acc.2 + (idxs.filter (fun i => decide ((acc.1.getD i default).weight - w = 0))).length := by
  induction idxs with
  | nil => intro acc _ _; simp
  | cons j t ih =>
    intro acc hnd hlen
    simp only [List.foldl_cons]
    have hjlen : j < acc.1.length := hlen j (List.mem_cons_self _ _)
    obtain ⟨sc, hsc⟩ : ∃ sc, acc.1[j]? = some sc := by
      rcases h : acc.1[j]? with _ | sc
      · rw [List.getElem?_eq_none_iff] at h
        omega
      · exact ⟨sc, rfl⟩
    have hrest := ih (relaxDecStep w acc j) (List.nodup_cons.mp hnd).2
      (fun i hi => by rw [relaxDecStep_length]; exact hlen i (List.mem_cons_of_mem _ hi))
    have hfil : t.filter (fun i => decide (((relaxDecStep w acc j).1.getD i default).weight - w = 0))
        = t.filter (fun i => decide ((acc.1.getD i default).weight - w = 0)) := by
      apply List.filter_congr
      intro i hi
      have hji : j ≠ i := by
        intro h
        exact (List.nodup_cons.mp hnd).1 (h ▸ hi)
      rw [List.getD_eq_getElem?_getD, relaxDecStep_get_ne w acc j i hji,
        ← List.getD_eq_getElem?_getD]
    rw [hrest, hfil]
    have hgd : acc.1.getD j default = sc := getD_of_getElem? hsc
    by_cases hz : sc.weight - w = 0
    · rw [List.filter_cons_of_pos (by rw [hgd]; simpa using hz)]
      have hstep : (relaxDecStep w acc j).2 = acc.2 + 1 := by
        unfold relaxDecStep
        rw [hsc]
        simp [hz]
      rw [hstep]
      simp only [List.length_cons]
      omega
    · rw [List.filter_cons_of_neg (by rw [hgd]; simpa using hz)]
      have hstep : (relaxDecStep w acc j).2 = acc.2 := by
        unfold relaxDecStep
        rw [hsc]
        simp [hz]
      rw [hstep]

lemma computeCostCore_le (F : Formula) (conflict : List Lit)
    (hpos : ∀ l ∈ conflict, 1 ≤ softWeightAt F l) :
    ∀ l ∈ conflict, computeCostCore F conflict ≤ softWeightAt F l := by
  intro l hl
  by_cases hpt : F.problemType = ProblemType.unweighted
  · unfold computeCostCore
    rw [if_pos hpt]
    exact hpos l hl
  · have hw : F.problemType = ProblemType.weighted := by
      cases h : F.problemType
      · rfl
      · exact absurd h hpt
    rw [computeCostCore_weighted F conflict hw]
    exact foldl_min_le_mem _ _ _ (List.mem_map_of_mem _ hl)

/-- C10: with `weightCore = computeCostCore(conflict)`, every soft clause
indexed through `coreMapping` by a conflict literal carries at least
`weightCore` (so the uint64 decrement in `relaxCore` is exact and never
wraps: the new weight plus `weightCore` gives back the old weight), the
assumption variable is cleared exactly when the decremented weight reaches
0 (i.e. when the old weight equals `weightCore`), and `num_hardened` grows
by the number of such clauses.  The hypotheses mirror the oracle contract:
the conflict is a set of currently-assumed literals, so the mapped soft
indices are in range and pairwise distinct, and the clauses are active
(positive weight). -/
theorem relaxCore_safe (pm : PM) (conflict : List Lit)
    (hne : conflict ≠ [])
    (hpos : ∀ l ∈ conflict, 1 ≤ softWeightAt pm.F l)
    (hidx : ∀ l ∈ conflict, pm.F.coreMapping l < pm.F.soft.length)
    (hnd : (conflict.map pm.F.coreMapping).Nodup) :
    (∀ l ∈ conflict, computeCostCore pm.F conflict ≤ softWeightAt pm.F l) ∧
    (∀ l ∈ conflict, ∃ sc',
      (relaxCorePM pm conflict (computeCostCore pm.F conflict)).F.soft[pm.F.coreMapping l]? =
        some sc' ∧
      sc'.weight + computeCostCore pm.F conflict = softWeightAt pm.F l ∧
      sc'.assumption_var =
        (if softWeightAt pm.F l = computeCostCore pm.F conflict then none
         else (pm.F.soft.getD (pm.F.coreMapping l) default).assumption_var)) ∧
    (relaxCorePM pm conflict (computeCostCore pm.F conflict)).num_hardened =
      pm.num_hardened +
        (conflict.filter
          (fun l => decide (softWeightAt pm.F l = computeCostCore pm.F conflict))).length := by
  have hle := computeCostCore_le pm.F conflict hpos
  set w := computeCostCore pm.F conflict with hwdef
  refine ⟨hle, ?_, ?_⟩
  · intro l hl
    have hmem : pm.F.coreMapping l ∈ conflict.map pm.F.coreMapping := List.mem_map_of_mem _ hl
    have hlen : pm.F.coreMapping l < pm.F.soft.length := hidx l hl
    obtain ⟨sc0, hsc0⟩ : ∃ sc0, pm.F.soft[pm.F.coreMapping l]? = some sc0 := by
      rcases h : pm.F.soft[pm.F.coreMapping l]? with _ | sc0
      · rw [List.getElem?_eq_none_iff] at h
        omega
      · exact ⟨sc0, rfl⟩
    have hsw : softWeightAt pm.F l = sc0.weight := by
      unfold softWeightAt
      rw [getD_of_getElem? hsc0]
    have hget := decFold_get_mem w (conflict.map pm.F.coreMapping)
      (pm.F.soft, pm.num_hardened) (pm.F.coreMapping l) hnd hmem hlen
    refine ⟨relaxApply w sc0, ?_, ?_, ?_⟩
    · have hsoft_eq : (relaxCorePM pm conflict w).F.soft
          = ((conflict.map pm.F.coreMapping).foldl (relaxDecStep w)
              (pm.F.soft, pm.num_hardened)).1
            ++ emrNewSofts
                { pm.F with soft := ((conflict.map pm.F.coreMapping).foldl (relaxDecStep w)
                    (pm.F.soft, pm.num_hardened)).1 } conflict w := rfl
      rw [hsoft_eq, List.getElem?_append, if_pos (by rw [decFold_length]; exact hlen)]
      rw [hget, hsc0]
      rfl
    · have hlw : w ≤ sc0.weight := hsw ▸ hle l hl
      unfold relaxApply
      by_cases hz : sc0.weight - w = 0
      · rw [if_pos hz]
        simp only
        omega
      · rw [if_neg hz]
        simp only
        omega
    · have hlw : w ≤ sc0.weight := hsw ▸ hle l hl
      rw [getD_of_getElem? hsc0, hsw]
      unfold relaxApply
      by_cases hz : sc0.weight - w = 0
      · rw [if_pos hz, if_pos (by omega)]
      · rw [if_neg hz, if_neg (by omega)]
  · show ((conflict.map pm.F.coreMapping).foldl (relaxDecStep w)
        (pm.F.soft, pm.num_hardened)).2 = _
    rw [decFold_num w (conflict.map pm.F.coreMapping) (pm.F.soft, pm.num_hardened) hnd
      (by
        intro i hi
        rcases List.mem_map.mp hi with ⟨l, hl, hcm⟩
        exact hcm ▸ hidx l hl)]
    congr 1
    rw [List.filter_map]
    rw [List.length_map]
    congr 1
    apply List.filter_congr
    intro l hl
    have hlw : w ≤ softWeightAt pm.F l := hle l hl
    show decide ((pm.F.soft.getD (pm.F.coreMapping l) default).weight - w = 0) = _
    rw [decide_eq_decide]
    show softWeightAt pm.F l - w = 0 ↔ softWeightAt pm.F l = w
    omega

/-- C10 witness: on `pm10` (weights 5 and 7) the core cost 5 lower-bounds
the conflict's weights, `num_hardened` grows by the number of clauses
whose weight equals the core cost, and that number is 1. -/
theorem relaxCore_safe_witness :
    computeCostCore pm10.F conflict6 ≤ softWeightAt pm10.F (mkLit 0 true) ∧
    (relaxCorePM pm10 conflict6 (computeCostCore pm10.F conflict6)).num_hardened =
      pm10.num_hardened +
        (conflict6.filter
          (fun l => decide (softWeightAt pm10.F l = computeCostCore pm10.F conflict6))).length ∧
    (relaxCorePM pm10 conflict6 (computeCostCore pm10.F conflict6)).num_hardened = 1 := by
  have h := relaxCore_safe pm10 conflict6 (by decide) (by decide) (by decide) (by decide)
  refine ⟨h.1 (mkLit 0 true) (by decide), h.2.2, ?_⟩
  rw [h.2.2]
  decide

lemma checkGapPM_lbCost (pm : PM) : (checkGapPM pm).lbCost = pm.lbCost := by
  simp only [checkGapPM]
  split <;> rfl

lemma checkGapPM_ubCost (pm : PM) : (checkGapPM pm).ubCost = pm.ubCost := by
  simp only [checkGapPM]
  split <;> rfl

lemma checkGapPM_F (pm : PM) : (checkGapPM pm).F = pm.F := by
  simp only [checkGapPM]
  split <;> rfl

lemma checkGapPM_hardAbsorbed (pm : PM) : (checkGapPM pm).hardAbsorbed = pm.hardAbsorbed := by
  simp only [checkGapPM]
  split <;> rfl

lemma checkGapPM_gap_le (pm : PM) : (checkGapPM pm).known_gap ≤ pm.known_gap := by
  simp only [checkGapPM]
  split
  · exact Nat.le_of_lt (by assumption)
  · exact Nat.le_refl _

lemma relaxCorePM_lbCost (pm : PM) (c : List Lit) (w : Nat) :
    (relaxCorePM pm c w).lbCost = pm.lbCost := rfl

lemma relaxCorePM_ubCost (pm : PM) (c : List Lit) (w : Nat) :
    (relaxCorePM pm c w).ubCost = pm.ubCost := rfl

lemma relaxCorePM_gap (pm : PM) (c : List Lit) (w : Nat) :
    (relaxCorePM pm c w).known_gap = pm.known_gap := rfl

lemma relaxCorePM_hardAbsorbed (pm : PM) (c : List Lit) (w : Nat) :
    (relaxCorePM pm c w).hardAbsorbed = pm.hardAbsorbed := rfl

/-- Per-operation bound movement: one solver operation never decreases
`lbCost`, never increases `ubCost`, never increases `known_gap`. -/
lemma GStep_bounds {a b : PM} (h : GStep a b) :
    a.lbCost ≤ b.lbCost ∧ b.ubCost ≤ a.ubCost ∧ b.known_gap ≤ a.known_gap := by
  cases h with
  | relax conflict hne hidx hnd hw =>
    unfold relaxEvent
    refine ⟨?_, ?_, ?_⟩
    · rw [relaxCorePM_lbCost, checkGapPM_lbCost]
      exact Nat.le_add_right _ _
    · rw [relaxCorePM_ubCost, checkGapPM_ubCost]
    · rw [relaxCorePM_gap]
      exact checkGapPM_gap_le _
  | checkM modelCost =>
    unfold checkModelPM
    by_cases hmc : modelCost < a.ubCost
    · rw [if_pos hmc]
      refine ⟨?_, ?_, ?_⟩
      · rw [checkGapPM_lbCost]
      · rw [checkGapPM_ubCost]
        exact Nat.le_of_lt hmc
      · exact checkGapPM_gap_le _
    · rw [if_neg hmc]
      exact ⟨Nat.le_refl _, Nat.le_refl _, Nat.le_refl _⟩
  | updUB modelCost =>
    unfold weightSearchSatStep
    by_cases hmc : modelCost < a.ubCost
    · rw [if_pos hmc]
      exact ⟨Nat.le_refl _, Nat.le_of_lt hmc, Nat.le_refl _⟩
    · rw [if_neg hmc]
      exact ⟨Nat.le_refl _, Nat.le_refl _, Nat.le_refl _⟩
  | ubToLb =>
    by_cases hlt : a.lbCost < a.ubCost
    · rw [if_pos hlt]
      exact ⟨Nat.le_refl _, Nat.le_of_lt hlt, Nat.le_refl _⟩
    · rw [if_neg hlt]
      exact ⟨Nat.le_refl _, Nat.le_refl _, Nat.le_refl _⟩
  | harden model =>
    exact ⟨Nat.le_refl _, Nat.le_refl _, Nat.le_refl _⟩
  | strat W =>
    exact ⟨Nat.le_refl _, Nat.le_refl _, Nat.le_refl _⟩
  | sync =>
    exact ⟨Nat.le_refl _, Nat.le_refl _, Nat.le_refl _⟩
  | assume =>
    exact ⟨Nat.le_refl _, Nat.le_refl _, Nat.le_refl _⟩
  | linPrep pt k =>
    exact ⟨Nat.le_refl _, Nat.le_refl _, Nat.le_refl _⟩

/-- C1: throughout any run of `search()` — any sequence of solver
operations — `lbCost` is monotonically non-decreasing, `ubCost` is
monotonically non-increasing, and `known_gap` is monotonically
non-increasing: every operation (core relaxation, model checking,
hardening, stratification, solver synchronisation, linear-search
preparation) leaves each bound unchanged or moves it in its monotone
direction. -/
theorem search_bounds_monotone (s t : PM) (h : GSteps s t) :
    s.lbCost ≤ t.lbCost ∧ t.ubCost ≤ s.ubCost ∧ t.known_gap ≤ s.known_gap := by
  induction h with
  | refl => exact ⟨Nat.le_refl _, Nat.le_refl _, Nat.le_refl _⟩
  | tail hst hstep ih =>
    have hb := GStep_bounds hstep
    exact ⟨Nat.le_trans ih.1 hb.1, Nat.le_trans hb.2.1 ih.2.1, Nat.le_trans hb.2.2 ih.2.2⟩

/-- C1 witness: a model-check step from `pm10` with model cost 3 moves
the bounds monotonically. -/
theorem search_bounds_monotone_witness :
    pm10.lbCost ≤ (checkModelPM pm10 3).lbCost ∧
    (checkModelPM pm10 3).ubCost ≤ pm10.ubCost ∧
    (checkModelPM pm10 3).known_gap ≤ pm10.known_gap :=
  search_bounds_monotone pm10 (checkModelPM pm10 3)
    (Relation.ReflTransGen.single (GStep.checkM pm10 3))

lemma sumW_append (A B : List SoftClause) : sumW (A ++ B) = sumW A + sumW B := by
  unfold sumW
  rw [List.map_append, List.sum_append]

lemma sumW_cons (x : SoftClause) (L : List SoftClause) : sumW (x :: L) = x.weight + sumW L := by
  unfold sumW
  rw [List.map_cons, List.sum_cons]

lemma softSum_eq (F : Formula) : softSum F = sumW F.soft := rfl

lemma emrNewSofts_sumW (F : Formula) (core : List Lit) (w : Nat) :
    sumW (emrNewSofts F core w) = (core.length - 1) * w := by
  unfold emrNewSofts sumW
  rw [List.map_map]
  have hconst : (List.range (core.length - 1)).map
      ((fun sc : SoftClause => sc.weight) ∘ (fun i =>
        SoftClause.mk w [lneg (aLit F core i)] (some (aLit F core i))))
      = List.replicate (core.length - 1) w := by
    rw [show ((fun sc : SoftClause => sc.weight) ∘ (fun i =>
        SoftClause.mk w [lneg (aLit F core i)] (some (aLit F core i)))) = fun _ => w from rfl]
    rw [List.map_const']
    rw [List.length_range]
  rw [hconst, List.sum_replicate, smul_eq_mul]

lemma hardenLoop_sum_le (bound : Nat) (model : List LBool) (L : List SoftClause) :
    sumW (hardenLoop bound model L).softs ≤ sumW L := by
  induction L with
  | nil => exact Nat.le_refl _
  | cons sc t ih =>
    simp only [hardenLoop]
    by_cases h : hardenCond bound model sc
    · rw [if_pos h]
      show sumW (_ :: _) ≤ sumW (sc :: t)
      rw [sumW_cons, sumW_cons]
      show 0 + sumW (hardenLoop bound model t).softs ≤ sc.weight + sumW t
      omega
    · rw [if_neg h]
      show sumW (sc :: _) ≤ sumW (sc :: t)
      rw [sumW_cons, sumW_cons]
      omega

lemma hardenClauses_sum_le (pm : PM) (model : List LBool) :
    softSum (hardenClauses pm model).F ≤ softSum pm.F := by
  show sumW ((hardenLoop (gap64 pm.ubCost pm.lbCost) model (pm.F.soft.take pm.softs_added)).softs
      ++ pm.F.soft.drop pm.softs_added) ≤ sumW pm.F.soft
  rw [sumW_append]
  have h1 := hardenLoop_sum_le (gap64 pm.ubCost pm.lbCost) model (pm.F.soft.take pm.softs_added)
  have h2 : sumW (pm.F.soft.take pm.softs_added) + sumW (pm.F.soft.drop pm.softs_added)
      = sumW pm.F.soft := by
    rw [← sumW_append, List.take_append_drop]
  omega

lemma relaxCorePM_sum (pm : PM) (conflict : List Lit) (w : Nat)
    (hne : conflict ≠ [])
    (hidx : ∀ l ∈ conflict, pm.F.coreMapping l < pm.F.soft.length)
    (hnd : (conflict.map pm.F.coreMapping).Nodup)
    (hw : ∀ l ∈ conflict, w ≤ softWeightAt pm.F l) :
    softSum (relaxCorePM pm conflict w).F + w = softSum pm.F := by
  have hsoft : (relaxCorePM pm conflict w).F.soft
      = ((conflict.map pm.F.coreMapping).foldl (relaxDecStep w)
          (pm.F.soft, pm.num_hardened)).1
        ++ emrNewSofts
            { pm.F with soft := ((conflict.map pm.F.coreMapping).foldl (relaxDecStep w)
                (pm.F.soft, pm.num_hardened)).1 } conflict w := rfl
  rw [softSum_eq, hsoft, sumW_append, emrNewSofts_sumW]
  have hdec := decFold_sum w (conflict.map pm.F.coreMapping) (pm.F.soft, pm.num_hardened) hnd
    (by
      intro i hi
      rcases List.mem_map.mp hi with ⟨l, hl, hcm⟩
      exact hcm ▸ hidx l hl)
    (by
      intro i hi
      rcases List.mem_map.mp hi with ⟨l, hl, hcm⟩
      exact hcm ▸ hw l hl)
  rw [List.length_map] at hdec
  rcases conflict with _ | ⟨hd, tl⟩
  · exact absurd rfl hne
  · rw [softSum_eq]
    simp only [List.length_cons] at hdec ⊢
    rw [Nat.succ_sub_one, Nat.succ_mul] at *
    omega

/-- Per-operation weight accounting: one solver operation preserves
current soft weight plus weight absorbed into the lower bound plus weight
removed by the hardener. -/
lemma GStep_sum {a b : PM} (h : GStep a b) :
    softSum b.F + b.lbCost + b.hardAbsorbed = softSum a.F + a.lbCost + a.hardAbsorbed := by
  cases h with
  | relax conflict hne hidx hnd hw =>
    simp only [relaxEvent]
    have hF1 : (checkGapPM { a with lbCost := a.lbCost + computeCostCore a.F conflict, nbCores := a.nbCores + 1 }).F = a.F := checkGapPM_F _
    have hsum := relaxCorePM_sum (checkGapPM { a with lbCost := a.lbCost + computeCostCore a.F conflict, nbCores := a.nbCores + 1 }) conflict (computeCostCore a.F conflict) hne (by rw [hF1]; exact hidx) (by rw [hF1]; exact hnd) (by rw [hF1]; exact hw)
    rw [hF1] at hsum
    rw [relaxCorePM_lbCost, relaxCorePM_hardAbsorbed, checkGapPM_lbCost, checkGapPM_hardAbsorbed]
    dsimp only
    omega
  | checkM modelCost =>
    simp only [checkModelPM]
    by_cases hmc : modelCost < a.ubCost
    · rw [if_pos hmc]
      rw [checkGapPM_lbCost, checkGapPM_hardAbsorbed, checkGapPM_F]
    · rw [if_neg hmc]
  | updUB modelCost =>
    simp only [weightSearchSatStep]
    by_cases hmc : modelCost < a.ubCost
    · rw [if_pos hmc]
    · rw [if_neg hmc]
  | ubToLb =>
    by_cases hlt : a.lbCost < a.ubCost
    · rw [if_pos hlt]
    · rw [if_neg hlt]
  | harden model =>
    have hle := hardenClauses_sum_le a model
    have hlb : (hardenClauses a model).lbCost = a.lbCost := rfl
    show softSum (hardenClauses a model).F + (hardenClauses a model).lbCost
        + (a.hardAbsorbed + (softSum a.F - softSum (hardenClauses a model).F)) = _
    rw [hlb]
    omega
  | strat W => rfl
  | sync => rfl
  | assume => rfl
  | linPrep pt k => rfl

/-- C5: throughout any run, the sum of current soft-clause weights plus
the total core weight absorbed into `lbCost` plus the total weight of
clauses removed by the hardener is invariant (equal to its initial value,
the original `sum_weights`); in particular a `relaxCore` on a core of
size `n` with weight `w` decrements `n` soft clauses by `w` and appends
`n-1` soft clauses of weight `w` — a net decrease of exactly `w`, matching
the increase of `lbCost` by `w` in the driver. -/
theorem search_sum_invariant (s t : PM) (h : GSteps s t) :
    softSum t.F + t.lbCost + t.hardAbsorbed = softSum s.F + s.lbCost + s.hardAbsorbed := by
  induction h with
  | refl => rfl
  | tail hst hstep ih =>
    rw [GStep_sum hstep, ih]

/-- C5 witness: relaxing the two-literal core of `pm10` (core weight 5)
leaves soft weight plus lower bound plus hardener-absorbed weight
unchanged. -/
theorem search_sum_invariant_witness :
    softSum (relaxEvent pm10 conflict6).F + (relaxEvent pm10 conflict6).lbCost
      + (relaxEvent pm10 conflict6).hardAbsorbed
      = softSum pm10.F + pm10.lbCost + pm10.hardAbsorbed :=
  search_sum_invariant pm10 (relaxEvent pm10 conflict6)
    (Relation.ReflTransGen.single
      (GStep.relax pm10 conflict6 (by decide) (by decide) (by decide) (by decide)))

lemma setAssumptions_lbCost (pm : PM) : ((setAssumptions pm).2).lbCost = pm.lbCost := rfl

lemma setAssumptions_ubCost (pm : PM) : ((setAssumptions pm).2).ubCost = pm.ubCost := rfl

/-- C9: `weightDisjointCores` only ever returns `SATISFIABLE` (the oracle
answered true), `UNKNOWN` (budget exhausted or oracle inconclusive) or
`ERROR`; it returns `ERROR` exactly when `lbCost` exceeds `ubCost` after a
relaxation (assuming `lbCost ≤ ubCost` on entry, which every exit except
the post-relaxation check preserves).  In particular it never returns
`OPTIMUM`, so the `us == _OPTIMUM_` branches of `weightSearch` and
`coreGuidedLinearSearch` that call `getModelAfterCG` are unreachable. -/
theorem weightDisjointCores_statuses :
    ∀ (evs : List WDCEvent) (pm : PM) (code : StatusCode) (pmf : PM),
      pm.lbCost ≤ pm.ubCost →
      weightDisjointCores pm evs = some (code, pmf) →
      code ≠ StatusCode.OPTIMUM ∧
      (code = StatusCode.SATISFIABLE ∨ code = StatusCode.UNKNOWN ∨ code = StatusCode.ERROR) ∧
      (code = StatusCode.ERROR ↔ pmf.ubCost < pmf.lbCost) := by
  intro evs
  induction evs with
  | nil =>
    intro pm code pmf hle heq
    simp [weightDisjointCores] at heq
  | cons ev rest ih =>
    intro pm code pmf hle heq
    obtain ⟨b, r⟩ := ev
    cases b with
    | true =>
      simp only [weightDisjointCores, if_pos] at heq
      obtain ⟨hc, hp⟩ := Prod.mk.injEq .. ▸ Option.some.injEq .. ▸ heq
      subst hc
      subst hp
      refine ⟨by decide, by decide, ?_⟩
      exact ⟨fun h => absurd h (by decide), fun h => absurd h (Nat.not_lt.mpr hle)⟩
    | false =>
      cases r with
      | sat =>
        simp only [weightDisjointCores, Bool.false_eq_true, if_false] at heq
        obtain ⟨hc, hp⟩ := Prod.mk.injEq .. ▸ Option.some.injEq .. ▸ heq
        subst hc
        subst hp
        refine ⟨by decide, by decide, ?_⟩
        refine ⟨fun h => absurd h (by decide), fun h => absurd h ?_⟩
        rw [setAssumptions_lbCost, setAssumptions_ubCost]
        exact Nat.not_lt.mpr hle
      | undef =>
        simp only [weightDisjointCores, Bool.false_eq_true, if_false] at heq
        obtain ⟨hc, hp⟩ := Prod.mk.injEq .. ▸ Option.some.injEq .. ▸ heq
        subst hc
        subst hp
        refine ⟨by decide, by decide, ?_⟩
        refine ⟨fun h => absurd h (by decide), fun h => absurd h ?_⟩
        rw [setAssumptions_lbCost, setAssumptions_ubCost]
        exact Nat.not_lt.mpr hle
      | unsat conflict =>
        simp only [weightDisjointCores, Bool.false_eq_true, if_false] at heq
        by_cases hgt : (relaxEvent (setAssumptions pm).2 conflict).lbCost
            > (relaxEvent (setAssumptions pm).2 conflict).ubCost
        · rw [if_pos hgt] at heq
          obtain ⟨hc, hp⟩ := Prod.mk.injEq .. ▸ Option.some.injEq .. ▸ heq
          subst hc
          subst hp
          refine ⟨by decide, by decide, ?_⟩
          exact ⟨fun _ => hgt, fun _ => rfl⟩
        · rw [if_neg hgt] at heq
          exact ih _ code pmf (Nat.not_lt.mp hgt) heq

/-- C9 witness: a single `l_True` oracle answer makes
`weightDisjointCores` return `SATISFIABLE`, which is not `OPTIMUM` and
not `ERROR`. -/
theorem weightDisjointCores_statuses_witness :
    StatusCode.SATISFIABLE ≠ StatusCode.OPTIMUM ∧
    (StatusCode.SATISFIABLE = StatusCode.SATISFIABLE ∨
      StatusCode.SATISFIABLE = StatusCode.UNKNOWN ∨
      StatusCode.SATISFIABLE = StatusCode.ERROR) ∧
    (StatusCode.SATISFIABLE = StatusCode.ERROR ↔
      ((setAssumptions pm10).2).ubCost < ((setAssumptions pm10).2).lbCost) :=
  weightDisjointCores_statuses [⟨false, OracleResp.sat⟩] pm10 StatusCode.SATISFIABLE
    ((setAssumptions pm10).2) (by decide) rfl

lemma countDiv_eq_log (f : Nat) (hf : 2 ≤ f) :
    ∀ m : Nat, 1 ≤ m → countDiv f m = Nat.log f m + 1 := by
  intro m
  induction m using Nat.strong_induction_on with
  | _ m ih =>
    intro hm
    unfold countDiv
    rw [dif_neg (by omega : ¬(m = 0 ∨ f ≤ 1))]
    by_cases hlt : m < f
    · have hdiv : m / f = 0 := Nat.div_eq_of_lt hlt
      rw [hdiv]
      rw [show countDiv f 0 = 0 from by unfold countDiv; rw [dif_pos (Or.inl rfl)]]
      rw [Nat.log_of_lt hlt]
    · push_neg at hlt
      have hdpos : 1 ≤ m / f := (Nat.one_le_div_iff (by omega)).mpr hlt
      have hdlt : m / f < m := Nat.div_lt_self (by omega) (by omega)
      rw [ih (m / f) hdlt hdpos]
      rw [Nat.log_div_base]
      have hlpos : 0 < Nat.log f m := Nat.log_pos (by omega) hlt
      omega

lemma resetMaximumWeight_ge_one (F : Formula) : 1 ≤ (resetMaximumWeight F).maxWeight := by
  show 1 ≤ F.soft.foldl (fun maxW sc => if sc.weight > maxW then sc.weight else maxW) 1
  have hmono : ∀ (l : List SoftClause) (a : Nat),
      a ≤ l.foldl (fun maxW sc => if sc.weight > maxW then sc.weight else maxW) a := by
    intro l
    induction l with
    | nil => intro a; exact Nat.le_refl _
    | cons sc t ihl =>
      intro a
      simp only [List.foldl_cons]
      refine Nat.le_trans ?_ (ihl _)
      by_cases h : sc.weight > a
      · rw [if_pos h]
        omega
      · rw [if_neg h]
  exact hmono F.soft 1

/-- C8, counterexample: on `pm8` the maximum soft weight is 9 and the
smallest power of `varres_factor = 2` not exceeding it is `2^0 = 1`;
dividing down from 1 stops at 1 (the predicate holds there), yet
`initializeDivisionFactor(true)` sets `max_weight` to 8 — the code starts
from the greatest power of the factor not exceeding 9, not the smallest.
Exact exponentiation (`Nat.pow`) is the behaviour of line 353's
double-precision `pow` here: powers of 2 are exactly representable as
doubles throughout the uint64 range. -/
theorem initDivisionFactor_claim_false :
    (2 : Nat) ^ 0 = 1 ∧ (1 : Nat) ≤ 9 ∧
    (resetMaximumWeight pm8.F).maxWeight = 9 ∧
    divideWhileNotEnough { pm8 with F := resetMaximumWeight pm8.F } 2 1 = 1 ∧
    (initDivisionFactor Nat.pow true pm8).F.maxWeight = 8 ∧
    (8 : Nat) ≠ 1 := by
  refine ⟨rfl, by omega, by decide, ?_, ?_, by omega⟩
  · unfold divideWhileNotEnough
    rw [if_pos (by decide)]
  · have hstep : (initDivisionFactor Nat.pow true pm8).F.maxWeight
        = divideWhileNotEnough { pm8 with F := resetMaximumWeight pm8.F } 2
            (Nat.pow 2 (countDiv 2 (resetMaximumWeight pm8.F).maxWeight - 1)) := rfl
    rw [hstep, show (resetMaximumWeight pm8.F).maxWeight = 9 from by decide]
    have hlog : Nat.log 2 9 = 3 :=
      Nat.log_eq_of_pow_le_of_lt_pow (by norm_num) (by norm_num)
    rw [countDiv_eq_log 2 (by omega) 9 (by omega), hlog]
    rw [show (3 + 1 - 1 : Nat) = 3 from rfl]
    unfold divideWhileNotEnough
    rw [if_pos (by decide)]

/-- C8 (amended): `initializeDivisionFactor(true)` sets `max_weight` by
computing the greatest power of `varres_factor` not exceeding the maximum
soft-clause weight — the counter loop yields `floor(log_f maxW) + 1`, and
the candidate `pow(f, counter - 1)` of line 353 equals the exact power
`f ^ floor(log_f maxW)` whenever the double-precision computation is
exact (hypothesis `hpow`; true in particular whenever that power is below
2^53, or `f` is a power of two) — then repeatedly dividing by
`varres_factor` until the enough-softs-above-weight predicate (clause
count to distinct-weight count ratio above 1.25, or count equal to the
number of real softs) holds for the candidate. -/
theorem initDivisionFactor_spec (powFn : Nat → Nat → Nat) (pm : PM)
    (hf : 2 ≤ pm.cfg.varresFactor)
    (hpow : powFn pm.cfg.varresFactor
        (Nat.log pm.cfg.varresFactor (resetMaximumWeight pm.F).maxWeight)
      = pm.cfg.varresFactor ^
          Nat.log pm.cfg.varresFactor (resetMaximumWeight pm.F).maxWeight) :
    (initDivisionFactor powFn true pm).F.maxWeight
      = divideWhileNotEnough { pm with F := resetMaximumWeight pm.F } pm.cfg.varresFactor
          (pm.cfg.varresFactor ^
            Nat.log pm.cfg.varresFactor (resetMaximumWeight pm.F).maxWeight) ∧
    pm.cfg.varresFactor ^ Nat.log pm.cfg.varresFactor (resetMaximumWeight pm.F).maxWeight
      ≤ (resetMaximumWeight pm.F).maxWeight ∧
    (resetMaximumWeight pm.F).maxWeight
      < pm.cfg.varresFactor ^
          (Nat.log pm.cfg.varresFactor (resetMaximumWeight pm.F).maxWeight + 1) := by
  have hM1 : 1 ≤ (resetMaximumWeight pm.F).maxWeight := resetMaximumWeight_ge_one pm.F
  refine ⟨?_, Nat.pow_log_le_self _ (by omega), Nat.lt_pow_succ_log_self (by omega) _⟩
  have hstep : (initDivisionFactor powFn true pm).F.maxWeight
      = divideWhileNotEnough { pm with F := resetMaximumWeight pm.F } pm.cfg.varresFactor
          (powFn pm.cfg.varresFactor
            (countDiv pm.cfg.varresFactor (resetMaximumWeight pm.F).maxWeight - 1)) := rfl
  rw [hstep, countDiv_eq_log pm.cfg.varresFactor hf _ hM1, Nat.add_sub_cancel, hpow]

/-- C8 witness: on `pm8` (max soft weight 9, factor 2, where the
double-precision power is exact) the amended description holds: the
starting candidate is `2^3 = 8`, the greatest power of 2 not
exceeding 9. -/
theorem initDivisionFactor_spec_witness :
    (initDivisionFactor Nat.pow true pm8).F.maxWeight
      = divideWhileNotEnough { pm8 with F := resetMaximumWeight pm8.F } pm8.cfg.varresFactor
          (pm8.cfg.varresFactor ^
            Nat.log pm8.cfg.varresFactor (resetMaximumWeight pm8.F).maxWeight) ∧
    pm8.cfg.varresFactor ^ Nat.log pm8.cfg.varresFactor (resetMaximumWeight pm8.F).maxWeight
      ≤ (resetMaximumWeight pm8.F).maxWeight ∧
    (resetMaximumWeight pm8.F).maxWeight
      < pm8.cfg.varresFactor ^
          (Nat.log pm8.cfg.varresFactor (resetMaximumWeight pm8.F).maxWeight + 1) :=
  initDivisionFactor_spec Nat.pow pm8 (by decide) rfl

/-- C3, counterexample: in `pm3c` the gap is 1 and the second soft clause
is active with body size 1 and weight 10 > 1, so the claim requires it to
be hardened; but `hardenClauses` iterates only over the first
`softs_added = 1` clauses (line 225), so the clause keeps its weight and
assumption, nothing is pushed for it, `num_hardened` stays 0, and
`maxw_nothardened` ends as 1 although the maximum weight among
non-hardened soft clauses of the formula is 10. -/
theorem hardenClauses_claim_false :
    gap64 pm3c.ubCost pm3c.lbCost = 1 ∧
    pm3c.F.soft[1]? = some ⟨10, [mkLit 2 false], some (mkLit 3 false)⟩ ∧
    (10 : Nat) > 1 ∧
    (hardenClauses pm3c model3c).F.soft[1]? =
      some ⟨10, [mkLit 2 false], some (mkLit 3 false)⟩ ∧
    (hardenClauses pm3c model3c).num_hardened = 0 ∧
    (hardenClauses pm3c model3c).oracleHard = [] ∧
    (hardenClauses pm3c model3c).maxw_nothardened = 1 ∧
    (1 : Nat) ≠ 10 := by
  refine ⟨by decide, by decide, by omega, by decide, by decide, by decide, by decide, by omega⟩
